import Mathlib

/-!
Verification of the `astk` surface kernel (`src/astk/geom/surfaces.py`).

Floating-point values are modelled by exact rationals; 3-component numpy
vectors by `Fin 3 → ℚ`.  Control-point and weight grids are modelled as
total functions `ℕ → ℕ → _` together with the two degrees, the grid shape
being `(degree_u + 1) × (degree_v + 1)` as in the source.  A numpy division
whose denominator is exactly zero produces a non-finite value (NaN/Inf) in
the source rather than raising; evaluation results that would be non-finite
are modelled as `none`.
-/

/-- 3-component vector of rationals, modelling a numpy length-3 float array. -/
abbrev V3 : Type := Fin 3 → ℚ

/-- Modelled from the spec: `astk.utils.math.bernstein_poly` is not under
`src/`.  Section 4.2 gives the closed form `B(n,i,t) = C(n,i) t^i (1-t)^(n-i)`,
zero outside `i ∈ [0,n]`, and section 4.4 fixes the convention that an
out-of-range basis index evaluates to 0.  Arguments are integers because the
derivative formulas in the source call it with `i-1` and `n-1` offsets. -/
def bernstein_poly (n i : ℤ) (t : ℚ) : ℚ :=
  if 0 ≤ i ∧ i ≤ n then
    (Nat.choose n.toNat i.toNat : ℚ) * t ^ i.toNat * (1 - t) ^ (n - i).toNat
  else 0

/-- Errors raised by the kernel: `NegativeWeightError`, `InvalidGeometryError`,
numpy `ValueError` (negative sample count), and Python `AssertionError` for the
shape/degree asserts. -/
inductive SurfaceError : Type
  | negativeWeight : SurfaceError
  | invalidGeometry : SurfaceError
  | valueError : SurfaceError
  | assertionFailed : SurfaceError
deriving DecidableEq, Repr

/-- The `SurfaceEdge` enum of the source. -/
inductive SurfaceEdge : Type
  | North : SurfaceEdge
  | South : SurfaceEdge
  | East : SurfaceEdge
  | West : SurfaceEdge
deriving DecidableEq, Repr

/-- The `SurfaceCorner` enum of the source. -/
inductive SurfaceCorner : Type
  | Northeast : SurfaceCorner
  | Northwest : SurfaceCorner
  | Southwest : SurfaceCorner
  | Southeast : SurfaceCorner
deriving DecidableEq, Repr

/-- Source `BezierSurface`: a `(degree_u+1) × (degree_v+1)` control grid.  The grid
is a total function; only indices inside the grid shape are meaningful. -/
structure BezierSurface : Type where
  degree_u : ℕ
  degree_v : ℕ
  points : ℕ → ℕ → V3

namespace BezierSurface

/-- Source `BezierSurface.evaluate_ndarray`: the double loop
`point += P[i, j, :] * Bu * Bv`. -/
def evaluate_ndarray (S : BezierSurface) (u v : ℚ) : V3 :=
  ∑ i in Finset.range (S.degree_u + 1), ∑ j in Finset.range (S.degree_v + 1),
    (bernstein_poly (S.degree_u : ℤ) (i : ℤ) u *
      bernstein_poly (S.degree_v : ℤ) (j : ℤ) v) • S.points i j

/-- Source `BezierSurface.dSdu`: first partial derivative in `u` via the
finite-difference of degree-`(n-1)` Bernstein bases. -/
def dSdu (S : BezierSurface) (u v : ℚ) : V3 :=
  ∑ i in Finset.range (S.degree_u + 1), ∑ j in Finset.range (S.degree_v + 1),
    ((S.degree_u : ℚ) *
      (bernstein_poly ((S.degree_u : ℤ) - 1) ((i : ℤ) - 1) u -
        bernstein_poly ((S.degree_u : ℤ) - 1) (i : ℤ) u) *
      bernstein_poly (S.degree_v : ℤ) (j : ℤ) v) • S.points i j

/-- Source `BezierSurface.dSdv`: first partial derivative in `v`. -/
def dSdv (S : BezierSurface) (u v : ℚ) : V3 :=
  ∑ i in Finset.range (S.degree_u + 1), ∑ j in Finset.range (S.degree_v + 1),
    ((S.degree_v : ℚ) *
      (bernstein_poly ((S.degree_v : ℤ) - 1) ((j : ℤ) - 1) v -
        bernstein_poly ((S.degree_v : ℤ) - 1) (j : ℤ) v) *
      bernstein_poly (S.degree_u : ℤ) (i : ℤ) u) • S.points i j

/-- Source `get_parallel_degree`: degree along the edge. -/
def get_parallel_degree (S : BezierSurface) (e : SurfaceEdge) : ℕ :=
  match e with
  | .North => S.degree_u
  | .South => S.degree_u
  | .East => S.degree_v
  | .West => S.degree_v

/-- Source `get_perpendicular_degree`: degree across the edge. -/
def get_perpendicular_degree (S : BezierSurface) (e : SurfaceEdge) : ℕ :=
  match e with
  | .North => S.degree_v
  | .South => S.degree_v
  | .East => S.degree_u
  | .West => S.degree_u

/-- Source `get_point(row_index, continuity_index, edge)`.  The Python index
`[-(continuity_index+1)]` on a length-`d+1` list is `d - continuity_index`. -/
def get_point (S : BezierSurface) (row ci : ℕ) (e : SurfaceEdge) : V3 :=
  match e with
  | .North => S.points row (S.degree_v - ci)
  | .South => S.points row ci
  | .East => S.points (S.degree_u - ci) row
  | .West => S.points ci row

/-- Source `set_point(point, row_index, continuity_index, edge)`: in-place slot
mutation, modelled as a functional grid update. -/
def set_point (S : BezierSurface) (pt : V3) (row ci : ℕ) (e : SurfaceEdge) :
    BezierSurface :=
  match e with
  | .North => { S with points := fun a b =>
      if a = row ∧ b = S.degree_v - ci then pt else S.points a b }
  | .South => { S with points := fun a b =>
      if a = row ∧ b = ci then pt else S.points a b }
  | .East => { S with points := fun a b =>
      if a = S.degree_u - ci ∧ b = row then pt else S.points a b }
  | .West => { S with points := fun a b =>
      if a = ci ∧ b = row then pt else S.points a b }

/-- The `for row_index in range(parallel_degree+1)` loop of `enforce_g0`,
unrolled: `g0_loop k` has performed the iterations for rows `0..k-1`. -/
def g0_loop (S other : BezierSurface) (e oe : SurfaceEdge) : ℕ → BezierSurface
  | 0 => S
  | k + 1 =>
      (g0_loop S other e oe k).set_point (other.get_point k 0 oe) k 0 e

/-- Source `BezierSurface.enforce_g0`.  The `assert` on matching parallel degrees is
modelled as returning `none`. -/
def enforce_g0 (S other : BezierSurface) (e oe : SurfaceEdge) :
    Option BezierSurface :=
  if S.get_parallel_degree e = other.get_parallel_degree oe then
    some (g0_loop S other e oe (S.get_parallel_degree e + 1))
  else none

/-- The per-row loop of `enforce_g0g1`, acting on the post-G0 state. -/
def g1_loop (S0 other : BezierSurface) (f nr : ℚ) (e oe : SurfaceEdge) :
    ℕ → BezierSurface
  | 0 => S0
  | k + 1 =>
      let S := g1_loop S0 other f nr e oe k
      S.set_point
        (S.get_point k 0 e +
          (f * nr) • (other.get_point k 0 oe - other.get_point k 1 oe))
        k 1 e

/-- Source `BezierSurface.enforce_g0g1`.  `n_ratio` is a Python float division of the
two perpendicular degrees, which raises `ZeroDivisionError` when the target
perpendicular degree is 0; that is modelled (with the G0 degree assert) by
`none`. -/
def enforce_g0g1 (S other : BezierSurface) (f : ℚ) (e oe : SurfaceEdge) :
    Option BezierSurface :=
  match S.enforce_g0 other e oe with
  | none => none
  | some S0 =>
      if S.get_perpendicular_degree e = 0 then none
      else
        some (g1_loop S0 other f
          ((other.get_perpendicular_degree oe : ℚ) /
            (S.get_perpendicular_degree e : ℚ)) e oe
          (S.get_parallel_degree e + 1))

/-- First derivative perpendicular to an edge, as a function of the parameter
running along the edge: the integrand of `get_first_derivs_along_edge` with
`perp=True`. -/
def first_deriv_perp_to_edge (S : BezierSurface) (e : SurfaceEdge) (t : ℚ) :
    V3 :=
  match e with
  | .North => S.dSdv t 1
  | .South => S.dSdv t 0
  | .East => S.dSdu 1 t
  | .West => S.dSdu 0 t

end BezierSurface

/-- Orientation sign of an edge: South/West are the near boundary of the grid
(+1), North/East the far boundary (-1). -/
def edgeSign : SurfaceEdge → ℚ
  | .North => -1
  | .South => 1
  | .East => -1
  | .West => 1

/-- Concrete degree-(1,1) target patch (all control points at the origin). -/
def cexB : BezierSurface := ⟨1, 1, fun _ _ => ![0, 0, 0]⟩

/-- Concrete degree-(1,1) source patch with control point `(i, j, 0)` at grid
slot `(i, j)`. -/
def cexA : BezierSurface := ⟨1, 1, fun i j => ![(i : ℚ), (j : ℚ), 0]⟩

/-- The result of G0+G1 enforcement of `cexB` against the North edge of
`cexA` (a well-oriented edge pair), extracted from the `Option`. -/
def cexB1 : BezierSurface :=
  (cexB.enforce_g0g1 cexA 1 .South .North).getD cexB

/-- The result of G0+G1 enforcement of `cexB` against the South edge of
`cexA` (a same-orientation edge pair), extracted from the `Option`. -/
def cexBss : BezierSurface :=
  (cexB.enforce_g0g1 cexA 1 .South .South).getD cexB

/-- Source `RationalBezierSurface`: control grid plus a same-shape weight grid.  The
constructor checks (`RationalBezierSurface.make` below) are modelled
separately so that surfaces can also be described directly. -/
structure RationalBezierSurface : Type where
  degree_u : ℕ
  degree_v : ℕ
  points : ℕ → ℕ → V3
  weights : ℕ → ℕ → ℚ

namespace RationalBezierSurface

/-- Source `RationalBezierSurface.__init__`: the internally built clamped knot
vectors make every shape assert true by construction in this model, so the
constructor reduces to the negative-weight loop: raise `NegativeWeightError`
if any weight inside the grid shape is negative. -/
def make (du dv : ℕ) (points : ℕ → ℕ → V3) (weights : ℕ → ℕ → ℚ) :
    Except SurfaceError RationalBezierSurface :=
  if ∀ i < du + 1, ∀ j < dv + 1, 0 ≤ weights i j
  then .ok ⟨du, dv, points, weights⟩
  else .error .negativeWeight

/-- The accumulated denominator `wBuBv_sum` of
`RationalBezierSurface.evaluate_ndarray`. -/
def denom (S : RationalBezierSurface) (u v : ℚ) : ℚ :=
  ∑ i in Finset.range (S.degree_u + 1), ∑ j in Finset.range (S.degree_v + 1),
    bernstein_poly (S.degree_u : ℤ) (i : ℤ) u *
      bernstein_poly (S.degree_v : ℤ) (j : ℤ) v * S.weights i j

/-- The accumulated numerator `point` of
`RationalBezierSurface.evaluate_ndarray`. -/
def numer (S : RationalBezierSurface) (u v : ℚ) : V3 :=
  ∑ i in Finset.range (S.degree_u + 1), ∑ j in Finset.range (S.degree_v + 1),
    (bernstein_poly (S.degree_u : ℤ) (i : ℤ) u *
      bernstein_poly (S.degree_v : ℤ) (j : ℤ) v * S.weights i j) • S.points i j

/-- Source `RationalBezierSurface.evaluate_ndarray`: `point / wBuBv_sum`.  When the
weight-basis sum is exactly zero the numpy division yields a non-finite
(NaN/Inf) array in the source; that outcome is modelled as `none`. -/
def evaluate_ndarray (S : RationalBezierSurface) (u v : ℚ) : Option V3 :=
  if S.denom u v = 0 then none else some ((S.denom u v)⁻¹ • S.numer u v)

/-- Source `get_parallel_degree`. -/
def get_parallel_degree (S : RationalBezierSurface) (e : SurfaceEdge) : ℕ :=
  match e with
  | .North => S.degree_u
  | .South => S.degree_u
  | .East => S.degree_v
  | .West => S.degree_v

/-- Source `get_perpendicular_degree`. -/
def get_perpendicular_degree (S : RationalBezierSurface) (e : SurfaceEdge) :
    ℕ :=
  match e with
  | .North => S.degree_v
  | .South => S.degree_v
  | .East => S.degree_u
  | .West => S.degree_u

/-- Source `get_point`, with Python negative indexing resolved against the grid
shape. -/
def get_point (S : RationalBezierSurface) (row ci : ℕ) (e : SurfaceEdge) :
    V3 :=
  match e with
  | .North => S.points row (S.degree_v - ci)
  | .South => S.points row ci
  | .East => S.points (S.degree_u - ci) row
  | .West => S.points ci row

/-- Source `set_point`. -/
def set_point (S : RationalBezierSurface) (pt : V3) (row ci : ℕ)
    (e : SurfaceEdge) : RationalBezierSurface :=
  match e with
  | .North => { S with points := fun a b =>
      if a = row ∧ b = S.degree_v - ci then pt else S.points a b }
  | .South => { S with points := fun a b =>
      if a = row ∧ b = ci then pt else S.points a b }
  | .East => { S with points := fun a b =>
      if a = S.degree_u - ci ∧ b = row then pt else S.points a b }
  | .West => { S with points := fun a b =>
      if a = ci ∧ b = row then pt else S.points a b }

/-- Source `get_weight`. -/
def get_weight (S : RationalBezierSurface) (row ci : ℕ) (e : SurfaceEdge) :
    ℚ :=
  match e with
  | .North => S.weights row (S.degree_v - ci)
  | .South => S.weights row ci
  | .East => S.weights (S.degree_u - ci) row
  | .West => S.weights ci row

/-- Source `set_weight`. -/
def set_weight (S : RationalBezierSurface) (w : ℚ) (row ci : ℕ)
    (e : SurfaceEdge) : RationalBezierSurface :=
  match e with
  | .North => { S with weights := fun a b =>
      if a = row ∧ b = S.degree_v - ci then w else S.weights a b }
  | .South => { S with weights := fun a b =>
      if a = row ∧ b = ci then w else S.weights a b }
  | .East => { S with weights := fun a b =>
      if a = S.degree_u - ci ∧ b = row then w else S.weights a b }
  | .West => { S with weights := fun a b =>
      if a = ci ∧ b = row then w else S.weights a b }

/-- The row loop of the rational `enforce_g0`: each iteration copies the
neighbour's boundary point and then its boundary weight. -/
def g0_loop (S other : RationalBezierSurface) (e oe : SurfaceEdge) :
    ℕ → RationalBezierSurface
  | 0 => S
  | k + 1 =>
      ((g0_loop S other e oe k).set_point (other.get_point k 0 oe) k 0 e)
        |>.set_weight (other.get_weight k 0 oe) k 0 e

/-- Rational `enforce_g0`; the parallel-degree `assert` is modelled as
`none`. -/
def enforce_g0 (S other : RationalBezierSurface) (e oe : SurfaceEdge) :
    Option RationalBezierSurface :=
  if S.get_parallel_degree e = other.get_parallel_degree oe then
    some (g0_loop S other e oe (S.get_parallel_degree e + 1))
  else none

/-- One row of the rational G1 loop: compute the new weight, raise
`NegativeWeightError` (carrying the state at the moment of the raise) if it
is negative, otherwise store the weight and then store the point computed
from the newly stored weight. -/
def g1_row (other : RationalBezierSurface) (f nr : ℚ) (e oe : SurfaceEdge)
    (S : RationalBezierSurface) (r : ℕ) :
    Except (SurfaceError × RationalBezierSurface) RationalBezierSurface :=
  let w_i0_b := S.get_weight r 0 e
  let w_im_a := other.get_weight r 0 oe
  let w_im1_a := other.get_weight r 1 oe
  let w_i1_b := w_i0_b + f * nr * (w_im_a - w_im1_a)
  if w_i1_b < 0 then .error (.negativeWeight, S)
  else
    let S' := S.set_weight w_i1_b r 1 e
    let P_i1_b := (w_i0_b / w_i1_b) • S.get_point r 0 e +
      (f * nr / w_i1_b) •
        (w_im_a • other.get_point r 0 oe - w_im1_a • other.get_point r 1 oe)
    .ok (S'.set_point P_i1_b r 1 e)

/-- The row loop of the rational `enforce_g0g1`, aborting at the first
negative computed weight. -/
def g1_loop (S0 other : RationalBezierSurface) (f nr : ℚ)
    (e oe : SurfaceEdge) :
    ℕ → Except (SurfaceError × RationalBezierSurface) RationalBezierSurface
  | 0 => .ok S0
  | k + 1 =>
      match g1_loop S0 other f nr e oe k with
      | .error err => .error err
      | .ok S => g1_row other f nr e oe S k

/-- Rational `enforce_g0g1` (scalar `f`).  The degree `assert` and the
`ZeroDivisionError` from `n_ratio` over a zero perpendicular degree are
modelled as `assertionFailed`; a mid-loop `NegativeWeightError` carries the
partially mutated state. -/
def enforce_g0g1 (S other : RationalBezierSurface) (f : ℚ)
    (e oe : SurfaceEdge) :
    Except (SurfaceError × RationalBezierSurface) RationalBezierSurface :=
  match S.enforce_g0 other e oe with
  | none => .error (.assertionFailed, S)
  | some S0 =>
      if S.get_perpendicular_degree e = 0 then .error (.assertionFailed, S0)
      else
        g1_loop S0 other f
          ((other.get_perpendicular_degree oe : ℚ) /
            (S.get_perpendicular_degree e : ℚ)) e oe
          (S.get_parallel_degree e + 1)

end RationalBezierSurface

/-- A rational patch with a zero corner weight: degree (0,0), single control
point `(1,2,3)`, weight grid identically 0. -/
def c1Z : RationalBezierSurface := ⟨0, 0, fun _ _ => ![1, 2, 3], fun _ _ => 0⟩

/-- A rational patch with all weights positive, for the C1 witness. -/
def c1R : RationalBezierSurface :=
  ⟨1, 1, fun i j => ![(i : ℚ), (j : ℚ), 1], fun _ _ => 2⟩

/-- A rational patch with all weights 1, for the C2 witness. -/
def c2R : RationalBezierSurface :=
  ⟨1, 1, fun i j => ![(i : ℚ), (j : ℚ), 0], fun _ _ => 1⟩

/-- Concrete 3x3 rational target patch for the C3 witness (all points at the
origin, all weights 1). -/
def c3B : RationalBezierSurface := ⟨2, 2, fun _ _ => ![0, 0, 0], fun _ _ => 1⟩

/-- Concrete 3x3 rational source patch for the C3 witness. -/
def c3A : RationalBezierSurface :=
  ⟨2, 2, fun i j => ![(i : ℚ), (j : ℚ), 1], fun i j => (i : ℚ) + (j : ℚ) + 1⟩

namespace RationalBezierSurface

/-- The weight `w_i1_b = w_i0_b + f*n_ratio*(w_im_a - w_im1_a)` computed by
the rational G1 loop for a given row, in terms of the loop's starting
state. -/
def g1_new_weight_from (S0 other : RationalBezierSurface) (f nr : ℚ)
    (e oe : SurfaceEdge) (r : ℕ) : ℚ :=
  S0.get_weight r 0 e +
    f * nr * (other.get_weight r 0 oe - other.get_weight r 1 oe)

/-- The `post_g0` state of `enforce_g0g1`: the target after the embedded
`enforce_g0` has copied the boundary row. -/
def post_g0 (S other : RationalBezierSurface) (e oe : SurfaceEdge) :
    RationalBezierSurface :=
  g0_loop S other e oe (S.get_parallel_degree e + 1)

/-- The `n_ratio` float division of the rational `enforce_g0g1`. -/
def n_ratio (S other : RationalBezierSurface) (e oe : SurfaceEdge) : ℚ :=
  (other.get_perpendicular_degree oe : ℚ) /
    (S.get_perpendicular_degree e : ℚ)

/-- The weight computed by the rational G1 loop for a row of
`enforce_g0g1`. -/
def g1_new_weight (S other : RationalBezierSurface) (f : ℚ)
    (e oe : SurfaceEdge) (r : ℕ) : ℚ :=
  g1_new_weight_from (post_g0 S other e oe) other f (n_ratio S other e oe)
    e oe r

end RationalBezierSurface

/-- Concrete target patch for the C6 witness. -/
def c6B : RationalBezierSurface := ⟨1, 1, fun _ _ => ![0, 0, 0], fun _ _ => 1⟩

/-- Concrete source patch whose East inner weight jump makes the first G1 row
weight negative. -/
def c6A : RationalBezierSurface :=
  ⟨1, 1, fun i j => ![(i : ℚ), (j : ℚ), 0],
    fun i _ => if i = 1 then 1 else 3⟩

/-- Concrete source patch whose East weight jump makes every G1 row weight
exactly zero. -/
def c10A : RationalBezierSurface :=
  ⟨1, 1, fun i j => ![(i : ℚ), (j : ℚ), 0],
    fun i _ => if i = 1 then 1 else 2⟩

/-- Source `NURBSSurface`: explicit knots and degrees; the control grid shape is
`Nu × Nv`. -/
structure NURBSSurface : Type where
  Nu : ℕ
  Nv : ℕ
  control_points : ℕ → ℕ → V3
  knots_u : List ℚ
  knots_v : List ℚ
  weights : ℕ → ℕ → ℚ
  degree_u : ℕ
  degree_v : ℕ

namespace NURBSSurface

/-- Source `NURBSSurface.__init__`: the knot-count asserts
`len(knots) == N + degree + 1` (modelled as `assertionFailed`), then the
negative-weight loop over the `Nu × Nv` weight grid. -/
def make (control_points : ℕ → ℕ → V3) (knots_u knots_v : List ℚ)
    (weights : ℕ → ℕ → ℚ) (degree_u degree_v Nu Nv : ℕ) :
    Except SurfaceError NURBSSurface :=
  if knots_u.length = Nu + degree_u + 1 ∧ knots_v.length = Nv + degree_v + 1
  then
    if ∀ i < Nu, ∀ j < Nv, 0 ≤ weights i j then
      .ok ⟨Nu, Nv, control_points, knots_u, knots_v, weights, degree_u,
        degree_v⟩
    else .error .negativeWeight
  else .error .assertionFailed

end NURBSSurface

/-- Weight grid with a single negative entry, for the C5 witness. -/
def c5w_neg : ℕ → ℕ → ℚ := fun i j => if i = 0 ∧ j = 0 then -1 else 1

/-- All-zero control grid, for the C5 witness. -/
def c5P : ℕ → ℕ → V3 := fun _ _ => ![0, 0, 0]

/-- All-ones weight grid, for the C5 witness. -/
def c5w_one : ℕ → ℕ → ℚ := fun _ _ => 1

/-- A clamped degree-1 knot vector for a 2-point NURBS direction. -/
def c5knots : List ℚ := [0, 0, 1, 1]

/-- Python/numpy indexing into a knot array; the indices used by the theorems
below always stay in range, so the out-of-range default is never relied
upon. -/
def knotD (ks : List ℚ) (i : ℕ) : ℚ := ks.getD i 0

/-- Source `NURBSSurface._get_possible_spans`: the indices of the non-degenerate
knot spans, in scan order. -/
def possible_span_indices (ks : List ℚ) : List ℕ :=
  (List.range (ks.length - 1)).filter fun j => knotD ks j ≠ knotD ks (j + 1)

/-- Source `NURBSSurface._find_span`: linear scan for the half-open span
`[knot_j, knot_{j+1})` containing `t`, with the final span closed at the
top; `None` (no return) otherwise. -/
def find_span (ks : List ℚ) (t : ℚ) : Option ℕ :=
  match (possible_span_indices ks).find?
      (fun j => decide (knotD ks j ≤ t ∧ t < knotD ks (j + 1))) with
  | some j => some j
  | none =>
      match (possible_span_indices ks).getLast? with
      | some j => if t = knotD ks (j + 1) then some j else none
      | none => none

/-- Source `NURBSSurface._cox_de_boor`.  The source computes
`f = (t-k_i)/(k_{i+p}-k_i)` and `g = (k_{i+p+1}-t)/(k_{i+p+1}-k_{i+1})` under
`np.errstate` and replaces any non-finite ratio by 0, which matches rational
division by zero being 0; a recursive branch whose coefficient is exactly 0
is skipped rather than evaluated. -/
def cox_de_boor (ks : List ℚ) (t : ℚ) : ℕ → ℕ → ℚ
  | 0, i =>
      if i ∈ possible_span_indices ks ∧ find_span ks t = some i then 1 else 0
  | p + 1, i =>
      let f := (t - knotD ks i) / (knotD ks (i + (p + 1)) - knotD ks i)
      let g := (knotD ks (i + (p + 1) + 1) - t) /
        (knotD ks (i + (p + 1) + 1) - knotD ks (i + 1))
      if f = 0 ∧ g = 0 then 0
      else if f ≠ 0 ∧ g = 0 then f * cox_de_boor ks t p i
      else if f = 0 ∧ g ≠ 0 then g * cox_de_boor ks t p (i + 1)
      else f * cox_de_boor ks t p i + g * cox_de_boor ks t p (i + 1)

/-- Source `NURBSSurface._basis_functions`: the basis values for all control-point
indices. -/
def basis_functions (ks : List ℚ) (t : ℚ) (p n : ℕ) : List ℚ :=
  (List.range n).map (cox_de_boor ks t p)

/-- A clamped degree-2 knot vector with one interior knot, for the C7
witness. -/
def c7knots : List ℚ := [0, 0, 0, 1/2, 1, 1, 1]

/-- The IEEE-754 double value of `np.pi`, as an exact rational
(`884279719003555 / 2^48`). -/
def np_pi : ℚ := 884279719003555 / 281474976710656

/-- Python float `%`: `a - b * floor(a / b)` (result carries the divisor's
sign). -/
def pymod (a b : ℚ) : ℚ := a - b * ⌊a / b⌋

/-- Source `np.linspace(start, stop, num)`: `num` evenly spaced samples including
both endpoints; numpy raises `ValueError` for a negative sample count. -/
def linspaceQ (s e : ℚ) (num : ℤ) : Except SurfaceError (List ℚ) :=
  if num < 0 then .error .valueError
  else if num = 1 then .ok [s]
  else .ok ((List.range num.toNat).map fun (k : ℕ) =>
    s + (e - s) * (k : ℚ) / ((num : ℚ) - 1))

/-- The `N_angles` computation shared by both `_determine_angle_distribution`
closures: `2*int(diff // (0.5*pi)) + 1` when `diff % (0.5*pi) == 0`, else
`+ 3`. -/
def angle_count (d : ℚ) : ℤ :=
  if pymod d (1/2 * np_pi) = 0 then 2 * ⌊d / (1/2 * np_pi)⌋ + 1
  else 2 * ⌊d / (1/2 * np_pi)⌋ + 3

/-- Source `RationalBezierSurface.from_bezier_revolve._determine_angle_distribution`:
uses the absolute angle difference. -/
def determine_angle_distribution_rational (sa ea : ℚ) :
    Except SurfaceError (List ℚ) :=
  let angle_diff := |ea - sa|
  if angle_diff = 0 then .error .invalidGeometry
  else linspaceQ sa ea (angle_count angle_diff)

/-- Source `NURBSSurface.from_bezier_revolve._determine_angle_distribution`: uses
the signed angle difference (no `abs`). -/
def determine_angle_distribution_nurbs (sa ea : ℚ) :
    Except SurfaceError (List ℚ) :=
  let angle_diff := ea - sa
  if angle_diff = 0 then .error .invalidGeometry
  else linspaceQ sa ea (angle_count angle_diff)

/-- A line through two points, the axis argument of the revolution
builder. -/
structure Line3D : Type where
  p0 : V3
  p1 : V3

/-- Modelled from the spec: the geometric helpers used by
`from_bezier_revolve` (`project_point_onto_line`,
`measure_distance_point_line`, `rotate_point_about_axis`,
`Vector3D.normalized_value`) and `np.sin` live in `astk.geom.tools`,
`astk.geom.vector` and numpy, none of which is under `src/`; section 6 of
the spec treats them as opaque value-type operations, so the builder is
parametrized over them.  This is the per-profile-point inner loop of
`RationalBezierSurface.from_bezier_revolve`: an on-axis point is copied for
every angle; off-axis points are rotated, and every odd-indexed copy is
pushed out along the chord direction to `radius / sin(half-angle)` from the
axis projection. -/
def revolve_row_points (projFn : V3 → Line3D → V3) (distFn : V3 → Line3D → ℚ)
    (rotFn : V3 → Line3D → ℚ → V3) (normFn : V3 → V3) (sinFn : ℚ → ℚ)
    (point : V3) (axis : Line3D) (angles : List ℚ) : List V3 :=
  (List.range angles.length).map fun (idx : ℕ) =>
    let axis_projection := projFn point axis
    let radius := distFn point axis
    let rotated : V3 :=
      if radius = 0 then point else rotFn point axis (angles.getD idx 0)
    if idx % 2 = 0 then rotated
    else if radius = 0 then rotated
    else
      let sine_half_angle := sinFn (1/2 * np_pi -
        1/2 * (angles.getD (idx + 1) 0 - angles.getD (idx - 1) 0))
      axis_projection +
        (radius / sine_half_angle) • normFn (rotated - axis_projection)

/-- The weight row built by the revolution loop: 1.0 at even indices (the
"through" points) and `sin(pi/2 - half-angle)` at odd indices, appended
regardless of the point's radius. -/
def revolve_row_weights (sinFn : ℚ → ℚ) (angles : List ℚ) : List ℚ :=
  (List.range angles.length).map fun (idx : ℕ) =>
    if idx % 2 = 0 then 1
    else sinFn (1/2 * np_pi -
      1/2 * (angles.getD (idx + 1) 0 - angles.getD (idx - 1) 0))

/-- Source `RationalBezierSurface.from_bezier_revolve` up to (but not including) the
final constructor call: the control-point grid and weight grid accumulated by
the revolution loop, or the error raised by the angle-distribution helper. -/
def from_bezier_revolve (projFn : V3 → Line3D → V3)
    (distFn : V3 → Line3D → ℚ) (rotFn : V3 → Line3D → ℚ → V3)
    (normFn : V3 → V3) (sinFn : ℚ → ℚ) (bezier_points : List V3)
    (axis : Line3D) (start_angle end_angle : ℚ) :
    Except SurfaceError (List (List V3) × List (List ℚ)) :=
  match determine_angle_distribution_rational start_angle end_angle with
  | .error err => .error err
  | .ok angles => .ok
      (bezier_points.map (fun pt =>
        revolve_row_points projFn distFn rotFn normFn sinFn pt axis angles),
       bezier_points.map (fun _ => revolve_row_weights sinFn angles))

theorem bernstein_poly_at_zero (n i : ℤ) :
    bernstein_poly n i 0 = if i = 0 ∧ 0 ≤ n then 1 else 0 := by
  unfold bernstein_poly
  by_cases h : 0 ≤ i ∧ i ≤ n
  · obtain ⟨h1, h2⟩ := h
    by_cases hi : i = 0
    · subst hi
      simp [Int.le_trans h1 h2]
    · have : i.toNat ≠ 0 := by omega
      simp [h1, h2, hi, zero_pow this]
  · have : ¬ (i = 0 ∧ 0 ≤ n) := by omega
    simp [h, this]

theorem bernstein_poly_at_one (n i : ℤ) :
    bernstein_poly n i 1 = if i = n ∧ 0 ≤ n then 1 else 0 := by
  unfold bernstein_poly
  by_cases h : 0 ≤ i ∧ i ≤ n
  · obtain ⟨h1, h2⟩ := h
    by_cases hi : i = n
    · subst hi
      simp [h1, Nat.choose_self]
    · have : (n - i).toNat ≠ 0 := by omega
      simp [h1, h2, hi, zero_pow this]
  · have : ¬ (i = n ∧ 0 ≤ n) := by omega
    simp [h, this]

/-- Partition of unity for the Bernstein basis: binomial theorem for
`(t + (1-t))^n = 1`. -/
theorem bernstein_poly_partition (n : ℕ) (t : ℚ) :
    ∑ i in Finset.range (n + 1), bernstein_poly (n : ℤ) (i : ℤ) t = 1 := by
  have hbin := add_pow t (1 - t) n
  have hone : t + (1 - t) = 1 := by ring
  rw [hone, one_pow] at hbin
  rw [hbin]
  refine Finset.sum_congr rfl ?_
  intro i hi
  rw [Finset.mem_range] at hi
  have hin : i ≤ n := by omega
  unfold bernstein_poly
  have hcond : (0 : ℤ) ≤ (i : ℤ) ∧ (i : ℤ) ≤ (n : ℤ) := by omega
  have h1 : ((i : ℤ)).toNat = i := Int.toNat_natCast i
  have h2 : ((n : ℤ) - (i : ℤ)).toNat = n - i := by omega
  have h3 : ((n : ℤ)).toNat = n := Int.toNat_natCast n
  rw [if_pos hcond, h1, h2, h3]
  ring

section SumCollapse

variable {M : Type} [AddCommGroup M] [Module ℚ M]

/-- Collapse of a Bernstein-weighted sum at parameter 0. -/
theorem sum_smul_bernstein_zero (n : ℕ) (c : ℕ → M) :
    ∑ i in Finset.range (n + 1), bernstein_poly (n : ℤ) (i : ℤ) 0 • c i = c 0 := by
  have hrw : ∀ i ∈ Finset.range (n + 1),
      bernstein_poly (n : ℤ) (i : ℤ) 0 • c i = if i = 0 then c i else 0 := by
    intro i hi
    rw [bernstein_poly_at_zero]
    by_cases hi0 : i = 0
    · subst hi0
      simp
    · have : ¬ ((i : ℤ) = 0 ∧ (0 : ℤ) ≤ (n : ℤ)) := by omega
      simp [this, hi0]
  rw [Finset.sum_congr rfl hrw, Finset.sum_ite_eq' (Finset.range (n + 1)) 0 c]
  simp

/-- Collapse of a Bernstein-weighted sum at parameter 1. -/
theorem sum_smul_bernstein_one (n : ℕ) (c : ℕ → M) :
    ∑ i in Finset.range (n + 1), bernstein_poly (n : ℤ) (i : ℤ) 1 • c i = c n := by
  have hrw : ∀ i ∈ Finset.range (n + 1),
      bernstein_poly (n : ℤ) (i : ℤ) 1 • c i = if i = n then c i else 0 := by
    intro i hi
    rw [bernstein_poly_at_one]
    by_cases hin : i = n
    · subst hin
      simp
    · have : ¬ ((i : ℤ) = (n : ℤ) ∧ (0 : ℤ) ≤ (n : ℤ)) := by omega
      simp [this, hin]
  rw [Finset.sum_congr rfl hrw, Finset.sum_ite_eq' (Finset.range (n + 1)) n c]
  simp

/-- Collapse of the Bernstein finite-difference derivative coefficients at
parameter 0: only indices 0 and 1 survive. -/
theorem sum_smul_bernstein_fd_zero (n : ℕ) (hn : 1 ≤ n) (c : ℕ → M) :
    ∑ i in Finset.range (n + 1),
      (bernstein_poly ((n : ℤ) - 1) ((i : ℤ) - 1) 0 -
        bernstein_poly ((n : ℤ) - 1) (i : ℤ) 0) • c i = c 1 - c 0 := by
  have hrw : ∀ i ∈ Finset.range (n + 1),
      (bernstein_poly ((n : ℤ) - 1) ((i : ℤ) - 1) 0 -
        bernstein_poly ((n : ℤ) - 1) (i : ℤ) 0) • c i
      = (if i = 1 then c i else 0) - (if i = 0 then c i else 0) := by
    intro i hi
    rw [bernstein_poly_at_zero, bernstein_poly_at_zero, sub_smul]
    congr 1
    · by_cases hi1 : i = 1
      · have hc : (i : ℤ) - 1 = 0 ∧ (0 : ℤ) ≤ (n : ℤ) - 1 := by omega
        rw [if_pos hc, if_pos hi1, one_smul]
      · have hc : ¬ ((i : ℤ) - 1 = 0 ∧ (0 : ℤ) ≤ (n : ℤ) - 1) := by omega
        rw [if_neg hc, if_neg hi1, zero_smul]
    · by_cases hi0 : i = 0
      · have hc : (i : ℤ) = 0 ∧ (0 : ℤ) ≤ (n : ℤ) - 1 := by omega
        rw [if_pos hc, if_pos hi0, one_smul]
      · have hc : ¬ ((i : ℤ) = 0 ∧ (0 : ℤ) ≤ (n : ℤ) - 1) := by omega
        rw [if_neg hc, if_neg hi0, zero_smul]
  rw [Finset.sum_congr rfl hrw, Finset.sum_sub_distrib,
    Finset.sum_ite_eq' (Finset.range (n + 1)) 1 c,
    Finset.sum_ite_eq' (Finset.range (n + 1)) 0 c]
  have h1 : (1 : ℕ) ∈ Finset.range (n + 1) := by
    rw [Finset.mem_range]; omega
  have h0 : (0 : ℕ) ∈ Finset.range (n + 1) := by
    rw [Finset.mem_range]; omega
  rw [if_pos h1, if_pos h0]

/-- Collapse of the Bernstein finite-difference derivative coefficients at
parameter 1: only indices `n-1` and `n` survive. -/
theorem sum_smul_bernstein_fd_one (n : ℕ) (hn : 1 ≤ n) (c : ℕ → M) :
    ∑ i in Finset.range (n + 1),
      (bernstein_poly ((n : ℤ) - 1) ((i : ℤ) - 1) 1 -
        bernstein_poly ((n : ℤ) - 1) (i : ℤ) 1) • c i = c n - c (n - 1) := by
  have hrw : ∀ i ∈ Finset.range (n + 1),
      (bernstein_poly ((n : ℤ) - 1) ((i : ℤ) - 1) 1 -
        bernstein_poly ((n : ℤ) - 1) (i : ℤ) 1) • c i
      = (if i = n then c i else 0) - (if i = n - 1 then c i else 0) := by
    intro i hi
    rw [bernstein_poly_at_one, bernstein_poly_at_one, sub_smul]
    congr 1
    · by_cases hin : i = n
      · have hc : (i : ℤ) - 1 = (n : ℤ) - 1 ∧ (0 : ℤ) ≤ (n : ℤ) - 1 := by omega
        rw [if_pos hc, if_pos hin, one_smul]
      · have hc : ¬ ((i : ℤ) - 1 = (n : ℤ) - 1 ∧ (0 : ℤ) ≤ (n : ℤ) - 1) := by omega
        rw [if_neg hc, if_neg hin, zero_smul]
    · by_cases hin1 : i = n - 1
      · have hc : (i : ℤ) = (n : ℤ) - 1 ∧ (0 : ℤ) ≤ (n : ℤ) - 1 := by omega
        rw [if_pos hc, if_pos hin1, one_smul]
      · have hc : ¬ ((i : ℤ) = (n : ℤ) - 1 ∧ (0 : ℤ) ≤ (n : ℤ) - 1) := by omega
        rw [if_neg hc, if_neg hin1, zero_smul]
  rw [Finset.sum_congr rfl hrw, Finset.sum_sub_distrib,
    Finset.sum_ite_eq' (Finset.range (n + 1)) n c,
    Finset.sum_ite_eq' (Finset.range (n + 1)) (n - 1) c]
  have h1 : n ∈ Finset.range (n + 1) := by
    rw [Finset.mem_range]; omega
  have h0 : n - 1 ∈ Finset.range (n + 1) := by
    rw [Finset.mem_range]; omega
  rw [if_pos h1, if_pos h0]

end SumCollapse



namespace BezierSurface

theorem dSdu_at_zero (S : BezierSurface) (h : 1 ≤ S.degree_u) (v : ℚ) :
    S.dSdu 0 v = ∑ j in Finset.range (S.degree_v + 1),
      ((S.degree_u : ℚ) * bernstein_poly (S.degree_v : ℤ) (j : ℤ) v) •
        (S.points 1 j - S.points 0 j) := by
  unfold dSdu
  rw [Finset.sum_comm]
  refine Finset.sum_congr rfl ?_
  intro j hj
  have hterm : ∀ i ∈ Finset.range (S.degree_u + 1),
      ((S.degree_u : ℚ) *
        (bernstein_poly ((S.degree_u : ℤ) - 1) ((i : ℤ) - 1) 0 -
          bernstein_poly ((S.degree_u : ℤ) - 1) (i : ℤ) 0) *
        bernstein_poly (S.degree_v : ℤ) (j : ℤ) v) • S.points i j
      = ((S.degree_u : ℚ) * bernstein_poly (S.degree_v : ℤ) (j : ℤ) v) •
        ((bernstein_poly ((S.degree_u : ℤ) - 1) ((i : ℤ) - 1) 0 -
          bernstein_poly ((S.degree_u : ℤ) - 1) (i : ℤ) 0) • S.points i j) := by
    intro i hi
    rw [smul_smul]
    congr 1
    ring
  rw [Finset.sum_congr rfl hterm, ← Finset.smul_sum,
    sum_smul_bernstein_fd_zero S.degree_u h (fun i => S.points i j)]

theorem dSdu_at_one (S : BezierSurface) (h : 1 ≤ S.degree_u) (v : ℚ) :
    S.dSdu 1 v = ∑ j in Finset.range (S.degree_v + 1),
      ((S.degree_u : ℚ) * bernstein_poly (S.degree_v : ℤ) (j : ℤ) v) •
        (S.points S.degree_u j - S.points (S.degree_u - 1) j) := by
  unfold dSdu
  rw [Finset.sum_comm]
  refine Finset.sum_congr rfl ?_
  intro j hj
  have hterm : ∀ i ∈ Finset.range (S.degree_u + 1),
      ((S.degree_u : ℚ) *
        (bernstein_poly ((S.degree_u : ℤ) - 1) ((i : ℤ) - 1) 1 -
          bernstein_poly ((S.degree_u : ℤ) - 1) (i : ℤ) 1) *
        bernstein_poly (S.degree_v : ℤ) (j : ℤ) v) • S.points i j
      = ((S.degree_u : ℚ) * bernstein_poly (S.degree_v : ℤ) (j : ℤ) v) •
        ((bernstein_poly ((S.degree_u : ℤ) - 1) ((i : ℤ) - 1) 1 -
          bernstein_poly ((S.degree_u : ℤ) - 1) (i : ℤ) 1) • S.points i j) := by
    intro i hi
    rw [smul_smul]
    congr 1
    ring
  rw [Finset.sum_congr rfl hterm, ← Finset.smul_sum,
    sum_smul_bernstein_fd_one S.degree_u h (fun i => S.points i j)]

theorem dSdv_at_zero (S : BezierSurface) (h : 1 ≤ S.degree_v) (u : ℚ) :
    S.dSdv u 0 = ∑ i in Finset.range (S.degree_u + 1),
      ((S.degree_v : ℚ) * bernstein_poly (S.degree_u : ℤ) (i : ℤ) u) •
        (S.points i 1 - S.points i 0) := by
  unfold dSdv
  refine Finset.sum_congr rfl ?_
  intro i hi
  have hterm : ∀ j ∈ Finset.range (S.degree_v + 1),
      ((S.degree_v : ℚ) *
        (bernstein_poly ((S.degree_v : ℤ) - 1) ((j : ℤ) - 1) 0 -
          bernstein_poly ((S.degree_v : ℤ) - 1) (j : ℤ) 0) *
        bernstein_poly (S.degree_u : ℤ) (i : ℤ) u) • S.points i j
      = ((S.degree_v : ℚ) * bernstein_poly (S.degree_u : ℤ) (i : ℤ) u) •
        ((bernstein_poly ((S.degree_v : ℤ) - 1) ((j : ℤ) - 1) 0 -
          bernstein_poly ((S.degree_v : ℤ) - 1) (j : ℤ) 0) • S.points i j) := by
    intro j hj
    rw [smul_smul]
    congr 1
    ring
  rw [Finset.sum_congr rfl hterm, ← Finset.smul_sum,
    sum_smul_bernstein_fd_zero S.degree_v h (fun j => S.points i j)]

theorem dSdv_at_one (S : BezierSurface) (h : 1 ≤ S.degree_v) (u : ℚ) :
    S.dSdv u 1 = ∑ i in Finset.range (S.degree_u + 1),
      ((S.degree_v : ℚ) * bernstein_poly (S.degree_u : ℤ) (i : ℤ) u) •
        (S.points i S.degree_v - S.points i (S.degree_v - 1)) := by
  unfold dSdv
  refine Finset.sum_congr rfl ?_
  intro i hi
  have hterm : ∀ j ∈ Finset.range (S.degree_v + 1),
      ((S.degree_v : ℚ) *
        (bernstein_poly ((S.degree_v : ℤ) - 1) ((j : ℤ) - 1) 1 -
          bernstein_poly ((S.degree_v : ℤ) - 1) (j : ℤ) 1) *
        bernstein_poly (S.degree_u : ℤ) (i : ℤ) u) • S.points i j
      = ((S.degree_v : ℚ) * bernstein_poly (S.degree_u : ℤ) (i : ℤ) u) •
        ((bernstein_poly ((S.degree_v : ℤ) - 1) ((j : ℤ) - 1) 1 -
          bernstein_poly ((S.degree_v : ℤ) - 1) (j : ℤ) 1) • S.points i j) := by
    intro j hj
    rw [smul_smul]
    congr 1
    ring
  rw [Finset.sum_congr rfl hterm, ← Finset.smul_sum,
    sum_smul_bernstein_fd_one S.degree_v h (fun j => S.points i j)]

end BezierSurface

theorem edgeSign_mul_self (e : SurfaceEdge) : edgeSign e * edgeSign e = 1 := by
  cases e <;> norm_num [edgeSign]

namespace BezierSurface

/-- The perpendicular first derivative along an edge, written in edge-local
coordinates: sign, perpendicular degree, and the first difference of the two
boundary-adjacent control rows. -/
theorem first_deriv_perp_formula (S : BezierSurface) (e : SurfaceEdge)
    (h : 1 ≤ S.get_perpendicular_degree e) (t : ℚ) :
    S.first_deriv_perp_to_edge e t =
      edgeSign e • ((S.get_perpendicular_degree e : ℚ) •
        ∑ r in Finset.range (S.get_parallel_degree e + 1),
          bernstein_poly (S.get_parallel_degree e : ℤ) (r : ℤ) t •
            (S.get_point r 1 e - S.get_point r 0 e)) := by
  cases e with
  | West =>
      rw [show S.first_deriv_perp_to_edge .West t = S.dSdu 0 t from rfl,
        S.dSdu_at_zero h t]
      simp only [edgeSign, one_smul, get_point, get_parallel_degree,
        get_perpendicular_degree, Finset.smul_sum, smul_smul, one_mul]
  | East =>
      rw [show S.first_deriv_perp_to_edge .East t = S.dSdu 1 t from rfl,
        S.dSdu_at_one h t]
      simp only [edgeSign, get_point, get_parallel_degree,
        get_perpendicular_degree, Finset.smul_sum, smul_smul, Nat.sub_zero]
      refine Finset.sum_congr rfl ?_
      intro r hr
      rw [neg_one_mul, neg_smul, ← smul_neg, neg_sub]
  | South =>
      rw [show S.first_deriv_perp_to_edge .South t = S.dSdv t 0 from rfl,
        S.dSdv_at_zero h t]
      simp only [edgeSign, one_smul, get_point, get_parallel_degree,
        get_perpendicular_degree, Finset.smul_sum, smul_smul, one_mul]
  | North =>
      rw [show S.first_deriv_perp_to_edge .North t = S.dSdv t 1 from rfl,
        S.dSdv_at_one h t]
      simp only [edgeSign, get_point, get_parallel_degree,
        get_perpendicular_degree, Finset.smul_sum, smul_smul, Nat.sub_zero]
      refine Finset.sum_congr rfl ?_
      intro r hr
      rw [neg_one_mul, neg_smul, ← smul_neg, neg_sub]

end BezierSurface



namespace BezierSurface

theorem set_point_degree_u (S : BezierSurface) (pt : V3) (row ci : ℕ)
    (e : SurfaceEdge) : (S.set_point pt row ci e).degree_u = S.degree_u := by
  cases e <;> rfl

theorem set_point_degree_v (S : BezierSurface) (pt : V3) (row ci : ℕ)
    (e : SurfaceEdge) : (S.set_point pt row ci e).degree_v = S.degree_v := by
  cases e <;> rfl

theorem get_set_point_same (S : BezierSurface) (pt : V3) (row ci : ℕ)
    (e : SurfaceEdge) : (S.set_point pt row ci e).get_point row ci e = pt := by
  cases e <;> simp [get_point, set_point]

theorem get_set_point_other_row (S : BezierSurface) (pt : V3)
    (row row' ci : ℕ) (e : SurfaceEdge) (hrow : row ≠ row') :
    (S.set_point pt row' ci e).get_point row ci e = S.get_point row ci e := by
  cases e <;> simp [get_point, set_point, hrow]

/-- Writing at continuity depth 1 does not disturb a boundary (depth 0) read,
provided the grid has at least two rows across the edge. -/
theorem get_set_point_ci_one_zero (S : BezierSurface) (pt : V3)
    (row row' : ℕ) (e : SurfaceEdge) (h : 1 ≤ S.get_perpendicular_degree e) :
    (S.set_point pt row' 1 e).get_point row 0 e = S.get_point row 0 e := by
  cases e with
  | North =>
      have hne : S.degree_v ≠ S.degree_v - 1 := by
        simp only [get_perpendicular_degree] at h
        omega
      simp [get_point, set_point, hne]
  | South => simp [get_point, set_point]
  | East =>
      have hne : S.degree_u ≠ S.degree_u - 1 := by
        simp only [get_perpendicular_degree] at h
        omega
      simp [get_point, set_point, hne]
  | West => simp [get_point, set_point]

theorem g0_loop_degree_u (S other : BezierSurface) (e oe : SurfaceEdge)
    (k : ℕ) : (g0_loop S other e oe k).degree_u = S.degree_u := by
  induction k with
  | zero => rfl
  | succ n ih => rw [g0_loop, set_point_degree_u, ih]

theorem g0_loop_degree_v (S other : BezierSurface) (e oe : SurfaceEdge)
    (k : ℕ) : (g0_loop S other e oe k).degree_v = S.degree_v := by
  induction k with
  | zero => rfl
  | succ n ih => rw [g0_loop, set_point_degree_v, ih]

/-- After the G0 loop has processed rows `0..k-1`, every such boundary slot
holds the neighbour's boundary value. -/
theorem g0_loop_get_point (S other : BezierSurface) (e oe : SurfaceEdge)
    (k r : ℕ) (hr : r < k) :
    (g0_loop S other e oe k).get_point r 0 e = other.get_point r 0 oe := by
  induction k with
  | zero => omega
  | succ n ih =>
      rw [g0_loop]
      by_cases hrn : r = n
      · subst hrn
        exact get_set_point_same _ _ _ _ _
      · rw [get_set_point_other_row _ _ _ _ _ _ hrn]
        exact ih (by omega)

theorem g1_loop_degree_u (S0 other : BezierSurface) (f nr : ℚ)
    (e oe : SurfaceEdge) (k : ℕ) :
    (g1_loop S0 other f nr e oe k).degree_u = S0.degree_u := by
  induction k with
  | zero => rfl
  | succ n ih => rw [g1_loop, set_point_degree_u, ih]

theorem g1_loop_degree_v (S0 other : BezierSurface) (f nr : ℚ)
    (e oe : SurfaceEdge) (k : ℕ) :
    (g1_loop S0 other f nr e oe k).degree_v = S0.degree_v := by
  induction k with
  | zero => rfl
  | succ n ih => rw [g1_loop, set_point_degree_v, ih]

theorem g1_loop_perp_degree (S0 other : BezierSurface) (f nr : ℚ)
    (e oe : SurfaceEdge) (k : ℕ) :
    (g1_loop S0 other f nr e oe k).get_perpendicular_degree e =
      S0.get_perpendicular_degree e := by
  cases e <;>
    simp [get_perpendicular_degree, g1_loop_degree_u, g1_loop_degree_v]

/-- The G1 loop never touches boundary (depth 0) slots. -/
theorem g1_loop_get_point_zero (S0 other : BezierSurface) (f nr : ℚ)
    (e oe : SurfaceEdge) (h : 1 ≤ S0.get_perpendicular_degree e) (k r : ℕ) :
    (g1_loop S0 other f nr e oe k).get_point r 0 e = S0.get_point r 0 e := by
  induction k with
  | zero => rfl
  | succ n ih =>
      rw [g1_loop]
      rw [get_set_point_ci_one_zero _ _ _ _ _
        (by rw [g1_loop_perp_degree]; exact h)]
      exact ih

/-- After the G1 loop has processed rows `0..k-1`, each depth-1 slot holds the
tangent-matching combination of the post-G0 boundary value and the
neighbour's first difference. -/
theorem g1_loop_get_point_one (S0 other : BezierSurface) (f nr : ℚ)
    (e oe : SurfaceEdge) (h : 1 ≤ S0.get_perpendicular_degree e) (k r : ℕ)
    (hr : r < k) :
    (g1_loop S0 other f nr e oe k).get_point r 1 e =
      S0.get_point r 0 e +
        (f * nr) • (other.get_point r 0 oe - other.get_point r 1 oe) := by
  induction k with
  | zero => omega
  | succ n ih =>
      rw [g1_loop]
      by_cases hrn : r = n
      · subst hrn
        rw [get_set_point_same,
          g1_loop_get_point_zero S0 other f nr e oe h]
      · rw [get_set_point_other_row _ _ _ _ _ _ hrn]
        exact ih (by omega)

end BezierSurface



namespace BezierSurface

theorem g0_loop_perp_degree (S other : BezierSurface) (e oe : SurfaceEdge)
    (k : ℕ) : (g0_loop S other e oe k).get_perpendicular_degree e =
      S.get_perpendicular_degree e := by
  cases e <;>
    simp [get_perpendicular_degree, g0_loop_degree_u, g0_loop_degree_v]

theorem g0_loop_par_degree (S other : BezierSurface) (e oe : SurfaceEdge)
    (k : ℕ) : (g0_loop S other e oe k).get_parallel_degree e =
      S.get_parallel_degree e := by
  cases e <;>
    simp [get_parallel_degree, g0_loop_degree_u, g0_loop_degree_v]

theorem g1_loop_par_degree (S0 other : BezierSurface) (f nr : ℚ)
    (e oe : SurfaceEdge) (k : ℕ) :
    (g1_loop S0 other f nr e oe k).get_parallel_degree e =
      S0.get_parallel_degree e := by
  cases e <;>
    simp [get_parallel_degree, g1_loop_degree_u, g1_loop_degree_v]

/-- Effect of `enforce_g0g1` on the perpendicular first derivative along the
joined edge: the target's cross-boundary derivative becomes `-f` times the
product of the two edge orientation signs times the source's cross-boundary
derivative, at every parameter along the boundary. -/
theorem enforce_g0g1_first_deriv (S other B' : BezierSurface) (f : ℚ)
    (e oe : SurfaceEdge) (hqa : 1 ≤ other.get_perpendicular_degree oe)
    (henf : S.enforce_g0g1 other f e oe = some B') (t : ℚ) :
    B'.first_deriv_perp_to_edge e t =
      (-f * edgeSign e * edgeSign oe) •
        other.first_deriv_perp_to_edge oe t := by
  by_cases hpd : S.get_parallel_degree e = other.get_parallel_degree oe
  · by_cases hqd : S.get_perpendicular_degree e = 0
    · simp [enforce_g0g1, enforce_g0, hpd, hqd] at henf
    · rw [enforce_g0g1, enforce_g0, if_pos hpd] at henf
      simp only [if_neg hqd, Option.some.injEq] at henf
      subst henf
      have hqd1 : 1 ≤ S.get_perpendicular_degree e := by omega
      set S0 : BezierSurface :=
        g0_loop S other e oe (S.get_parallel_degree e + 1) with hS0
      set nr : ℚ := (other.get_perpendicular_degree oe : ℚ) /
        (S.get_perpendicular_degree e : ℚ) with hnr
      set B' : BezierSurface :=
        g1_loop S0 other f nr e oe (S.get_parallel_degree e + 1) with hB'
      have hS0perp : S0.get_perpendicular_degree e =
          S.get_perpendicular_degree e := g0_loop_perp_degree _ _ _ _ _
      have hS0perp1 : 1 ≤ S0.get_perpendicular_degree e := by
        rw [hS0perp]; exact hqd1
      have hBperp : B'.get_perpendicular_degree e =
          S.get_perpendicular_degree e := by
        rw [hB', g1_loop_perp_degree, hS0perp]
      have hBpar : B'.get_parallel_degree e =
          other.get_parallel_degree oe := by
        rw [hB', g1_loop_par_degree, hS0, g0_loop_par_degree, hpd]
      set D : V3 := ∑ r in Finset.range (other.get_parallel_degree oe + 1),
        bernstein_poly (other.get_parallel_degree oe : ℤ) (r : ℤ) t •
          (other.get_point r 0 oe - other.get_point r 1 oe) with hD
      have hLHS : B'.first_deriv_perp_to_edge e t =
          (edgeSign e * ((S.get_perpendicular_degree e : ℚ) * (f * nr))) •
            D := by
        rw [first_deriv_perp_formula B' e (by rw [hBperp]; exact hqd1) t,
          hBperp, hBpar]
        have hsum : ∑ r in Finset.range (other.get_parallel_degree oe + 1),
            bernstein_poly (other.get_parallel_degree oe : ℤ) (r : ℤ) t •
              (B'.get_point r 1 e - B'.get_point r 0 e)
            = (f * nr) • D := by
          rw [hD, Finset.smul_sum]
          refine Finset.sum_congr rfl ?_
          intro r hr
          rw [Finset.mem_range] at hr
          have hr' : r < S.get_parallel_degree e + 1 := by omega
          rw [hB', g1_loop_get_point_one S0 other f nr e oe hS0perp1 _ _ hr',
            g1_loop_get_point_zero S0 other f nr e oe hS0perp1,
            add_sub_cancel_left, smul_comm]
        rw [hsum, smul_smul, smul_smul, mul_assoc]
      have hD' : ∑ r in Finset.range (other.get_parallel_degree oe + 1),
          bernstein_poly (other.get_parallel_degree oe : ℤ) (r : ℤ) t •
            (other.get_point r 1 oe - other.get_point r 0 oe)
          = (-1 : ℚ) • D := by
        rw [neg_one_smul, hD, ← Finset.sum_neg_distrib]
        refine Finset.sum_congr rfl ?_
        intro r hr
        rw [← smul_neg, neg_sub]
      have hRHS : (-f * edgeSign e * edgeSign oe) •
          other.first_deriv_perp_to_edge oe t =
          ((-f * edgeSign e * edgeSign oe) *
            (edgeSign oe * ((other.get_perpendicular_degree oe : ℚ) * (-1))))
            • D := by
        rw [first_deriv_perp_formula other oe hqa t, hD']
        simp only [smul_smul]
      rw [hLHS, hRHS]
      congr 1
      have hqdQ : (S.get_perpendicular_degree e : ℚ) ≠ 0 := by
        exact_mod_cast hqd
      rw [hnr]
      cases oe <;> simp only [edgeSign] <;> field_simp <;> ring
  · simp [enforce_g0g1, enforce_g0, hpd] at henf

end BezierSurface

theorem cexA_deriv_south : cexA.first_deriv_perp_to_edge .South 0 = ![0, 1, 0] := by
  funext k
  fin_cases k <;>
    norm_num [cexA, BezierSurface.first_deriv_perp_to_edge, BezierSurface.dSdv,
      Finset.sum_range_succ, Finset.sum_apply, bernstein_poly]

/-- C4 counterexample: joining the South edge of `cexB` to the South edge of
`cexA` (same-orientation pair) with `f = 1.0` and equal parallel and
perpendicular degrees, enforcement succeeds but the perpendicular first
derivative of the target at the boundary is the negation of the source's, not
equal to it. -/
theorem C4_counterexample :
    cexB.enforce_g0g1 cexA 1 .South .South = some cexBss ∧
    cexBss.first_deriv_perp_to_edge .South 0 = ![0, -1, 0] ∧
    cexA.first_deriv_perp_to_edge .South 0 = ![0, 1, 0] ∧
    (![0, -1, 0] : V3) ≠ ![0, 1, 0] := by
  have henf : cexB.enforce_g0g1 cexA 1 .South .South = some cexBss := rfl
  refine ⟨henf, ?_, cexA_deriv_south, ?_⟩
  · rw [BezierSurface.enforce_g0g1_first_deriv cexB cexA cexBss 1 .South .South
      (by decide) henf 0, cexA_deriv_south]
    funext k
    fin_cases k <;> norm_num [edgeSign]
  · intro h
    have := congrFun h 1
    norm_num at this

/-- C4 (amended).  For every pair of polynomial Bezier patches A and B
whose joined edges have equal parallel degrees and equal perpendicular
degrees, and whose joined edges have opposite grid orientation (one of
South/West joined to one of North/East, `edgeSign e * edgeSign oe = -1`),
after `B.enforce_g0g1(A, f=1.0, edge_B, edge_A)` the first derivative of B
perpendicular to its edge equals (exactly) the first derivative of A
perpendicular to its edge at every parameter value along the shared boundary.
For same-orientation edge pairs the code instead produces the exact negation
(see the counterexample). -/
theorem C4_g0g1_exact_tangent (S other B' : BezierSurface) (e oe : SurfaceEdge)
    (_hpar : S.get_parallel_degree e = other.get_parallel_degree oe)
    (hdeg : other.get_perpendicular_degree oe = S.get_perpendicular_degree e)
    (hsign : edgeSign e * edgeSign oe = -1)
    (henf : S.enforce_g0g1 other 1 e oe = some B') :
    ∀ t : ℚ, B'.first_deriv_perp_to_edge e t =
      other.first_deriv_perp_to_edge oe t := by
  intro t
  have hqd : S.get_perpendicular_degree e ≠ 0 := by
    intro h0
    rcases hE : S.enforce_g0 other e oe with _ | S0 <;>
      simp [BezierSurface.enforce_g0g1, hE, h0] at henf
  have hqa : 1 ≤ other.get_perpendicular_degree oe := by omega
  rw [BezierSurface.enforce_g0g1_first_deriv S other B' 1 e oe hqa henf t]
  have hs : (-1 : ℚ) * edgeSign e * edgeSign oe = 1 := by
    rw [mul_assoc, hsign]
    norm_num
  rw [hs, one_smul]

/-- Witness for C4: the South edge of `cexB` joined to the North edge of
`cexA` is an opposite-orientation pair with matching degrees, and the enforced
patch's cross-boundary derivative coincides with the source's. -/
theorem C4_witness : cexB1.first_deriv_perp_to_edge .South 0 =
    cexA.first_deriv_perp_to_edge .North 0 :=
  C4_g0g1_exact_tangent cexB cexA cexB1 .South .North rfl (by decide)
    (by norm_num [edgeSign]) rfl 0



namespace BezierSurface

theorem evaluate_ndarray_nested (S : BezierSurface) (u v : ℚ) :
    S.evaluate_ndarray u v = ∑ i in Finset.range (S.degree_u + 1),
      bernstein_poly (S.degree_u : ℤ) (i : ℤ) u •
        ∑ j in Finset.range (S.degree_v + 1),
          bernstein_poly (S.degree_v : ℤ) (j : ℤ) v • S.points i j := by
  unfold evaluate_ndarray
  refine Finset.sum_congr rfl ?_
  intro i hi
  rw [Finset.smul_sum]
  refine Finset.sum_congr rfl ?_
  intro j hj
  rw [mul_smul]

theorem evaluate_corner_SW (S : BezierSurface) :
    S.evaluate_ndarray 0 0 = S.points 0 0 := by
  rw [evaluate_ndarray_nested,
    sum_smul_bernstein_zero S.degree_u
      (fun i => ∑ j in Finset.range (S.degree_v + 1),
        bernstein_poly (S.degree_v : ℤ) (j : ℤ) 0 • S.points i j),
    sum_smul_bernstein_zero S.degree_v (fun j => S.points 0 j)]

theorem evaluate_corner_SE (S : BezierSurface) :
    S.evaluate_ndarray 1 0 = S.points S.degree_u 0 := by
  rw [evaluate_ndarray_nested,
    sum_smul_bernstein_one S.degree_u
      (fun i => ∑ j in Finset.range (S.degree_v + 1),
        bernstein_poly (S.degree_v : ℤ) (j : ℤ) 0 • S.points i j),
    sum_smul_bernstein_zero S.degree_v (fun j => S.points S.degree_u j)]

theorem evaluate_corner_NW (S : BezierSurface) :
    S.evaluate_ndarray 0 1 = S.points 0 S.degree_v := by
  rw [evaluate_ndarray_nested,
    sum_smul_bernstein_zero S.degree_u
      (fun i => ∑ j in Finset.range (S.degree_v + 1),
        bernstein_poly (S.degree_v : ℤ) (j : ℤ) 1 • S.points i j),
    sum_smul_bernstein_one S.degree_v (fun j => S.points 0 j)]

theorem evaluate_corner_NE (S : BezierSurface) :
    S.evaluate_ndarray 1 1 = S.points S.degree_u S.degree_v := by
  rw [evaluate_ndarray_nested,
    sum_smul_bernstein_one S.degree_u
      (fun i => ∑ j in Finset.range (S.degree_v + 1),
        bernstein_poly (S.degree_v : ℤ) (j : ℤ) 1 • S.points i j),
    sum_smul_bernstein_one S.degree_v (fun j => S.points S.degree_u j)]

end BezierSurface



namespace RationalBezierSurface

theorem denom_nested (S : RationalBezierSurface) (u v : ℚ) :
    S.denom u v = ∑ i in Finset.range (S.degree_u + 1),
      bernstein_poly (S.degree_u : ℤ) (i : ℤ) u •
        ∑ j in Finset.range (S.degree_v + 1),
          bernstein_poly (S.degree_v : ℤ) (j : ℤ) v • S.weights i j := by
  unfold denom
  refine Finset.sum_congr rfl ?_
  intro i hi
  rw [Finset.smul_sum]
  refine Finset.sum_congr rfl ?_
  intro j hj
  rw [smul_eq_mul, smul_eq_mul, mul_assoc]

theorem numer_nested (S : RationalBezierSurface) (u v : ℚ) :
    S.numer u v = ∑ i in Finset.range (S.degree_u + 1),
      bernstein_poly (S.degree_u : ℤ) (i : ℤ) u •
        ∑ j in Finset.range (S.degree_v + 1),
          bernstein_poly (S.degree_v : ℤ) (j : ℤ) v •
            (S.weights i j • S.points i j) := by
  unfold numer
  refine Finset.sum_congr rfl ?_
  intro i hi
  rw [Finset.smul_sum]
  refine Finset.sum_congr rfl ?_
  intro j hj
  rw [mul_smul, mul_smul]

theorem denom_corner_SW (S : RationalBezierSurface) :
    S.denom 0 0 = S.weights 0 0 := by
  rw [denom_nested,
    sum_smul_bernstein_zero S.degree_u
      (fun i => ∑ j in Finset.range (S.degree_v + 1),
        bernstein_poly (S.degree_v : ℤ) (j : ℤ) 0 • S.weights i j),
    sum_smul_bernstein_zero S.degree_v (fun j => S.weights 0 j)]

theorem denom_corner_SE (S : RationalBezierSurface) :
    S.denom 1 0 = S.weights S.degree_u 0 := by
  rw [denom_nested,
    sum_smul_bernstein_one S.degree_u
      (fun i => ∑ j in Finset.range (S.degree_v + 1),
        bernstein_poly (S.degree_v : ℤ) (j : ℤ) 0 • S.weights i j),
    sum_smul_bernstein_zero S.degree_v (fun j => S.weights S.degree_u j)]

theorem denom_corner_NW (S : RationalBezierSurface) :
    S.denom 0 1 = S.weights 0 S.degree_v := by
  rw [denom_nested,
    sum_smul_bernstein_zero S.degree_u
      (fun i => ∑ j in Finset.range (S.degree_v + 1),
        bernstein_poly (S.degree_v : ℤ) (j : ℤ) 1 • S.weights i j),
    sum_smul_bernstein_one S.degree_v (fun j => S.weights 0 j)]

theorem denom_corner_NE (S : RationalBezierSurface) :
    S.denom 1 1 = S.weights S.degree_u S.degree_v := by
  rw [denom_nested,
    sum_smul_bernstein_one S.degree_u
      (fun i => ∑ j in Finset.range (S.degree_v + 1),
        bernstein_poly (S.degree_v : ℤ) (j : ℤ) 1 • S.weights i j),
    sum_smul_bernstein_one S.degree_v (fun j => S.weights S.degree_u j)]

theorem numer_corner_SW (S : RationalBezierSurface) :
    S.numer 0 0 = S.weights 0 0 • S.points 0 0 := by
  rw [numer_nested,
    sum_smul_bernstein_zero S.degree_u
      (fun i => ∑ j in Finset.range (S.degree_v + 1),
        bernstein_poly (S.degree_v : ℤ) (j : ℤ) 0 •
          (S.weights i j • S.points i j)),
    sum_smul_bernstein_zero S.degree_v
      (fun j => S.weights 0 j • S.points 0 j)]

theorem numer_corner_SE (S : RationalBezierSurface) :
    S.numer 1 0 = S.weights S.degree_u 0 • S.points S.degree_u 0 := by
  rw [numer_nested,
    sum_smul_bernstein_one S.degree_u
      (fun i => ∑ j in Finset.range (S.degree_v + 1),
        bernstein_poly (S.degree_v : ℤ) (j : ℤ) 0 •
          (S.weights i j • S.points i j)),
    sum_smul_bernstein_zero S.degree_v
      (fun j => S.weights S.degree_u j • S.points S.degree_u j)]

theorem numer_corner_NW (S : RationalBezierSurface) :
    S.numer 0 1 = S.weights 0 S.degree_v • S.points 0 S.degree_v := by
  rw [numer_nested,
    sum_smul_bernstein_zero S.degree_u
      (fun i => ∑ j in Finset.range (S.degree_v + 1),
        bernstein_poly (S.degree_v : ℤ) (j : ℤ) 1 •
          (S.weights i j • S.points i j)),
    sum_smul_bernstein_one S.degree_v
      (fun j => S.weights 0 j • S.points 0 j)]

theorem numer_corner_NE (S : RationalBezierSurface) :
    S.numer 1 1 =
      S.weights S.degree_u S.degree_v • S.points S.degree_u S.degree_v := by
  rw [numer_nested,
    sum_smul_bernstein_one S.degree_u
      (fun i => ∑ j in Finset.range (S.degree_v + 1),
        bernstein_poly (S.degree_v : ℤ) (j : ℤ) 1 •
          (S.weights i j • S.points i j)),
    sum_smul_bernstein_one S.degree_v
      (fun j => S.weights S.degree_u j • S.points S.degree_u j)]

/-- Shared corner computation: when the relevant corner weight is nonzero,
the rational evaluation collapses to the corner control point. -/
theorem evaluate_corner_of_denom (S : RationalBezierSurface) (u v : ℚ)
    (w : ℚ) (pt : V3) (hd : S.denom u v = w) (hn : S.numer u v = w • pt)
    (hw : w ≠ 0) : S.evaluate_ndarray u v = some pt := by
  rw [evaluate_ndarray, hd, hn, if_neg hw, inv_smul_smul₀ hw]

end RationalBezierSurface

/-- C1 counterexample: with the non-negative weight grid that is zero at the
Southwest corner, the weight-basis sum at `(0,0)` is zero, the numpy division
is 0/0 (a NaN array, modelled as `none`), and the evaluation does not return
the corner control point. -/
theorem C1_counterexample :
    c1Z.evaluate_ndarray 0 0 ≠ some (c1Z.points 0 0) := by
  have h0 : c1Z.denom 0 0 = 0 := by rw [c1Z.denom_corner_SW]; rfl
  rw [RationalBezierSurface.evaluate_ndarray, if_pos h0]
  intro h
  exact Option.noConfusion h

/-- C1 (amended).  For every Bezier surface, pointwise evaluation at the
four parameter corners returns exactly the corresponding corner control
point; for every rational-Bezier surface the same holds at each corner whose
corner weight is strictly positive (with a zero corner weight the source
divides zero by zero and returns a NaN array, see the counterexample). -/
theorem C1_corner_evaluation :
    (∀ S : BezierSurface,
      S.evaluate_ndarray 0 0 = S.points 0 0 ∧
      S.evaluate_ndarray 1 0 = S.points S.degree_u 0 ∧
      S.evaluate_ndarray 0 1 = S.points 0 S.degree_v ∧
      S.evaluate_ndarray 1 1 = S.points S.degree_u S.degree_v) ∧
    (∀ R : RationalBezierSurface,
      (0 < R.weights 0 0 →
        R.evaluate_ndarray 0 0 = some (R.points 0 0)) ∧
      (0 < R.weights R.degree_u 0 →
        R.evaluate_ndarray 1 0 = some (R.points R.degree_u 0)) ∧
      (0 < R.weights 0 R.degree_v →
        R.evaluate_ndarray 0 1 = some (R.points 0 R.degree_v)) ∧
      (0 < R.weights R.degree_u R.degree_v →
        R.evaluate_ndarray 1 1 =
          some (R.points R.degree_u R.degree_v))) := by
  constructor
  · intro S
    exact ⟨S.evaluate_corner_SW, S.evaluate_corner_SE, S.evaluate_corner_NW,
      S.evaluate_corner_NE⟩
  · intro R
    refine ⟨fun hw => ?_, fun hw => ?_, fun hw => ?_, fun hw => ?_⟩
    · exact R.evaluate_corner_of_denom 0 0 _ _ R.denom_corner_SW
        R.numer_corner_SW (ne_of_gt hw)
    · exact R.evaluate_corner_of_denom 1 0 _ _ R.denom_corner_SE
        R.numer_corner_SE (ne_of_gt hw)
    · exact R.evaluate_corner_of_denom 0 1 _ _ R.denom_corner_NW
        R.numer_corner_NW (ne_of_gt hw)
    · exact R.evaluate_corner_of_denom 1 1 _ _ R.denom_corner_NE
        R.numer_corner_NE (ne_of_gt hw)

/-- Witness for C1 at a concrete bilinear patch with all weights 2. -/
theorem C1_witness :
    c1R.evaluate_ndarray 1 1 = some (c1R.points c1R.degree_u c1R.degree_v) :=
  (C1_corner_evaluation.2 c1R).2.2.2 (by norm_num [c1R])

/-- C2.  For every control grid and every `(u,v)` in the unit square,
evaluating a rational-Bezier surface whose weights are all 1 gives exactly
the polynomial Bezier evaluation of the same control grid: the weight-basis
sum is 1 by the Bernstein partition of unity, so the weighted sum divided by
it equals the unweighted sum. -/
theorem C2_unit_weights_polynomial (R : RationalBezierSurface)
    (hw : ∀ i < R.degree_u + 1, ∀ j < R.degree_v + 1, R.weights i j = 1)
    (u v : ℚ) (_hu0 : 0 ≤ u) (_hu1 : u ≤ 1) (_hv0 : 0 ≤ v) (_hv1 : v ≤ 1) :
    R.evaluate_ndarray u v =
      some ((BezierSurface.mk R.degree_u R.degree_v R.points).evaluate_ndarray
        u v) := by
  have hd : R.denom u v = 1 := by
    rw [R.denom_nested u v]
    have hinner : ∀ i ∈ Finset.range (R.degree_u + 1),
        bernstein_poly (R.degree_u : ℤ) (i : ℤ) u •
          ∑ j in Finset.range (R.degree_v + 1),
            bernstein_poly (R.degree_v : ℤ) (j : ℤ) v • R.weights i j
        = bernstein_poly (R.degree_u : ℤ) (i : ℤ) u := by
      intro i hi
      rw [Finset.mem_range] at hi
      have h1 : ∑ j in Finset.range (R.degree_v + 1),
          bernstein_poly (R.degree_v : ℤ) (j : ℤ) v • R.weights i j = 1 := by
        have hjs : ∀ j ∈ Finset.range (R.degree_v + 1),
            bernstein_poly (R.degree_v : ℤ) (j : ℤ) v • R.weights i j
            = bernstein_poly (R.degree_v : ℤ) (j : ℤ) v := by
          intro j hj
          rw [Finset.mem_range] at hj
          rw [hw i hi j hj, smul_eq_mul, mul_one]
        rw [Finset.sum_congr rfl hjs, bernstein_poly_partition]
      rw [h1, smul_eq_mul, mul_one]
    rw [Finset.sum_congr rfl hinner, bernstein_poly_partition]
  have hn : R.numer u v =
      (BezierSurface.mk R.degree_u R.degree_v R.points).evaluate_ndarray
        u v := by
    unfold RationalBezierSurface.numer BezierSurface.evaluate_ndarray
    refine Finset.sum_congr rfl ?_
    intro i hi
    rw [Finset.mem_range] at hi
    refine Finset.sum_congr rfl ?_
    intro j hj
    rw [Finset.mem_range] at hj
    rw [hw i hi j hj, mul_one]
  rw [RationalBezierSurface.evaluate_ndarray, hd, hn]
  norm_num

/-- Witness for C2: a bilinear patch with unit weights evaluated at the
center parameter. -/
theorem C2_witness :
    c2R.evaluate_ndarray (1/2) (1/2) =
      some ((BezierSurface.mk c2R.degree_u c2R.degree_v
        c2R.points).evaluate_ndarray (1/2) (1/2)) :=
  C2_unit_weights_polynomial c2R (by intro i hi j hj; rfl) (1/2) (1/2)
    (by norm_num) (by norm_num) (by norm_num) (by norm_num)

namespace RationalBezierSurface

theorem rational_set_point_degree_u (S : RationalBezierSurface) (pt : V3) (row ci : ℕ)
    (e : SurfaceEdge) : (S.set_point pt row ci e).degree_u = S.degree_u := by
  cases e <;> rfl

theorem rational_set_point_degree_v (S : RationalBezierSurface) (pt : V3) (row ci : ℕ)
    (e : SurfaceEdge) : (S.set_point pt row ci e).degree_v = S.degree_v := by
  cases e <;> rfl

theorem set_weight_degree_u (S : RationalBezierSurface) (w : ℚ) (row ci : ℕ)
    (e : SurfaceEdge) : (S.set_weight w row ci e).degree_u = S.degree_u := by
  cases e <;> rfl

theorem set_weight_degree_v (S : RationalBezierSurface) (w : ℚ) (row ci : ℕ)
    (e : SurfaceEdge) : (S.set_weight w row ci e).degree_v = S.degree_v := by
  cases e <;> rfl

theorem get_point_set_point_same (S : RationalBezierSurface) (pt : V3)
    (row ci : ℕ) (e : SurfaceEdge) :
    (S.set_point pt row ci e).get_point row ci e = pt := by
  cases e <;> simp [get_point, set_point]

theorem get_point_set_point_other_row (S : RationalBezierSurface) (pt : V3)
    (row row' ci : ℕ) (e : SurfaceEdge) (hrow : row ≠ row') :
    (S.set_point pt row' ci e).get_point row ci e = S.get_point row ci e := by
  cases e <;> simp [get_point, set_point, hrow]

theorem get_weight_set_weight_same (S : RationalBezierSurface) (w : ℚ)
    (row ci : ℕ) (e : SurfaceEdge) :
    (S.set_weight w row ci e).get_weight row ci e = w := by
  cases e <;> simp [get_weight, set_weight]

theorem get_weight_set_weight_other_row (S : RationalBezierSurface) (w : ℚ)
    (row row' ci : ℕ) (e : SurfaceEdge) (hrow : row ≠ row') :
    (S.set_weight w row' ci e).get_weight row ci e =
      S.get_weight row ci e := by
  cases e <;> simp [get_weight, set_weight, hrow]

theorem get_point_set_weight (S : RationalBezierSurface) (w : ℚ)
    (row ci row' ci' : ℕ) (e e' : SurfaceEdge) :
    (S.set_weight w row ci e).get_point row' ci' e' =
      S.get_point row' ci' e' := by
  cases e <;> cases e' <;> rfl

theorem get_weight_set_point (S : RationalBezierSurface) (pt : V3)
    (row ci row' ci' : ℕ) (e e' : SurfaceEdge) :
    (S.set_point pt row ci e).get_weight row' ci' e' =
      S.get_weight row' ci' e' := by
  cases e <;> cases e' <;> rfl

theorem rational_g0_loop_degree_u (S other : RationalBezierSurface)
    (e oe : SurfaceEdge) (k : ℕ) :
    (g0_loop S other e oe k).degree_u = S.degree_u := by
  induction k with
  | zero => rfl
  | succ n ih => rw [g0_loop, set_weight_degree_u, rational_set_point_degree_u, ih]

theorem rational_g0_loop_degree_v (S other : RationalBezierSurface)
    (e oe : SurfaceEdge) (k : ℕ) :
    (g0_loop S other e oe k).degree_v = S.degree_v := by
  induction k with
  | zero => rfl
  | succ n ih => rw [g0_loop, set_weight_degree_v, rational_set_point_degree_v, ih]

/-- After the rational G0 loop, every processed boundary slot holds the
neighbour's boundary point. -/
theorem rational_g0_loop_get_point (S other : RationalBezierSurface)
    (e oe : SurfaceEdge) (k r : ℕ) (hr : r < k) :
    (g0_loop S other e oe k).get_point r 0 e = other.get_point r 0 oe := by
  induction k with
  | zero => omega
  | succ n ih =>
      rw [g0_loop, get_point_set_weight]
      by_cases hrn : r = n
      · subst hrn
        exact get_point_set_point_same _ _ _ _ _
      · rw [get_point_set_point_other_row _ _ _ _ _ _ hrn]
        exact ih (by omega)

/-- After the rational G0 loop, every processed boundary slot holds the
neighbour's boundary weight. -/
theorem g0_loop_get_weight (S other : RationalBezierSurface)
    (e oe : SurfaceEdge) (k r : ℕ) (hr : r < k) :
    (g0_loop S other e oe k).get_weight r 0 e =
      other.get_weight r 0 oe := by
  induction k with
  | zero => omega
  | succ n ih =>
      rw [g0_loop]
      by_cases hrn : r = n
      · subst hrn
        exact get_weight_set_weight_same _ _ _ _ _
      · rw [get_weight_set_weight_other_row _ _ _ _ _ _ hrn,
          get_weight_set_point]
        exact ih (by omega)

end RationalBezierSurface

/-- C3.  For every pair of rational-Bezier patches with chosen edges of
equal parallel degree, `enforce_g0` copies the source's boundary point and
boundary weight into every boundary slot of the target (`row_index` from 0 to
the parallel degree); when the parallel degrees differ the asserted
precondition fails (modelled as `none`) instead of silently truncating. -/
theorem C3_enforce_g0 (B A : RationalBezierSurface) (eB eA : SurfaceEdge) :
    (B.get_parallel_degree eB = A.get_parallel_degree eA →
      ∃ B', B.enforce_g0 A eB eA = some B' ∧
        ∀ r ≤ B.get_parallel_degree eB,
          B'.get_point r 0 eB = A.get_point r 0 eA ∧
          B'.get_weight r 0 eB = A.get_weight r 0 eA) ∧
    (B.get_parallel_degree eB ≠ A.get_parallel_degree eA →
      B.enforce_g0 A eB eA = none) := by
  constructor
  · intro hpd
    refine ⟨RationalBezierSurface.g0_loop B A eB eA
      (B.get_parallel_degree eB + 1), ?_, ?_⟩
    · rw [RationalBezierSurface.enforce_g0, if_pos hpd]
    · intro r hr
      exact ⟨RationalBezierSurface.rational_g0_loop_get_point B A eB eA _ r
          (by omega),
        RationalBezierSurface.g0_loop_get_weight B A eB eA _ r (by omega)⟩
  · intro hpd
    rw [RationalBezierSurface.enforce_g0, if_neg hpd]

/-- Witness for C3: the spec's G0 scenario (two 3x3 patches, West edge of B
against East edge of A), plus a degree-mismatched pair that fails. -/
theorem C3_witness :
    (∃ B', c3B.enforce_g0 c3A .West .East = some B' ∧
      ∀ r ≤ c3B.get_parallel_degree .West,
        B'.get_point r 0 .West = c3A.get_point r 0 .East ∧
        B'.get_weight r 0 .West = c3A.get_weight r 0 .East) ∧
    c3B.enforce_g0 c1R .West .East = none :=
  ⟨(C3_enforce_g0 c3B c3A .West .East).1 rfl,
    (C3_enforce_g0 c3B c1R .West .East).2 (by decide)⟩

namespace RationalBezierSurface

theorem get_weight_set_weight_ci10 (S : RationalBezierSurface) (w : ℚ)
    (row row' : ℕ) (e : SurfaceEdge)
    (h : 1 ≤ S.get_perpendicular_degree e) :
    (S.set_weight w row' 1 e).get_weight row 0 e = S.get_weight row 0 e := by
  cases e with
  | North =>
      have hne : S.degree_v ≠ S.degree_v - 1 := by
        simp only [get_perpendicular_degree] at h
        omega
      simp [get_weight, set_weight, hne]
  | South => simp [get_weight, set_weight]
  | East =>
      have hne : S.degree_u ≠ S.degree_u - 1 := by
        simp only [get_perpendicular_degree] at h
        omega
      simp [get_weight, set_weight, hne]
  | West => simp [get_weight, set_weight]

theorem get_point_set_point_ci10 (S : RationalBezierSurface) (pt : V3)
    (row row' : ℕ) (e : SurfaceEdge)
    (h : 1 ≤ S.get_perpendicular_degree e) :
    (S.set_point pt row' 1 e).get_point row 0 e = S.get_point row 0 e := by
  cases e with
  | North =>
      have hne : S.degree_v ≠ S.degree_v - 1 := by
        simp only [get_perpendicular_degree] at h
        omega
      simp [get_point, set_point, hne]
  | South => simp [get_point, set_point]
  | East =>
      have hne : S.degree_u ≠ S.degree_u - 1 := by
        simp only [get_perpendicular_degree] at h
        omega
      simp [get_point, set_point, hne]
  | West => simp [get_point, set_point]

theorem perp_degree_congr (S T : RationalBezierSurface) (e : SurfaceEdge)
    (hu : S.degree_u = T.degree_u) (hv : S.degree_v = T.degree_v) :
    S.get_perpendicular_degree e = T.get_perpendicular_degree e := by
  cases e <;> simp [get_perpendicular_degree, hu, hv]

theorem set_weight_perp_degree (S : RationalBezierSurface) (w : ℚ)
    (row ci : ℕ) (e e' : SurfaceEdge) :
    (S.set_weight w row ci e').get_perpendicular_degree e =
      S.get_perpendicular_degree e := by
  cases e' <;> cases e <;> rfl

theorem set_point_perp_degree (S : RationalBezierSurface) (pt : V3)
    (row ci : ℕ) (e e' : SurfaceEdge) :
    (S.set_point pt row ci e').get_perpendicular_degree e =
      S.get_perpendicular_degree e := by
  cases e' <;> cases e <;> rfl

/-- Successful prefix of the rational G1 loop: if the computed weight of every
processed row is non-negative the loop reaches row `k` without raising,
boundary slots are untouched, unprocessed depth-1 slots are untouched, and
every processed row carries the new weight and the point computed from it. -/
theorem g1_loop_ok (S0 other : RationalBezierSurface) (f nr : ℚ)
    (e oe : SurfaceEdge) (hq : 1 ≤ S0.get_perpendicular_degree e) (k : ℕ)
    (hpos : ∀ r < k, 0 ≤ g1_new_weight_from S0 other f nr e oe r) :
    ∃ Sk, g1_loop S0 other f nr e oe k = .ok Sk ∧
      Sk.degree_u = S0.degree_u ∧
      Sk.degree_v = S0.degree_v ∧
      (∀ r, Sk.get_weight r 0 e = S0.get_weight r 0 e) ∧
      (∀ r, Sk.get_point r 0 e = S0.get_point r 0 e) ∧
      (∀ r, k ≤ r → Sk.get_weight r 1 e = S0.get_weight r 1 e) ∧
      (∀ r, k ≤ r → Sk.get_point r 1 e = S0.get_point r 1 e) ∧
      (∀ r < k, Sk.get_weight r 1 e =
        g1_new_weight_from S0 other f nr e oe r) ∧
      (∀ r < k, Sk.get_point r 1 e =
        (S0.get_weight r 0 e / g1_new_weight_from S0 other f nr e oe r) •
          S0.get_point r 0 e +
        (f * nr / g1_new_weight_from S0 other f nr e oe r) •
          (other.get_weight r 0 oe • other.get_point r 0 oe -
            other.get_weight r 1 oe • other.get_point r 1 oe)) := by
  induction k with
  | zero =>
      exact ⟨S0, rfl, rfl, rfl, fun r => rfl, fun r => rfl,
        fun r hr => rfl, fun r hr => rfl, fun r hr => by omega,
        fun r hr => by omega⟩
  | succ n ih =>
      obtain ⟨Sn, hok, hdu, hdv, hw0, hp0, hw1u, hp1u, hw1, hp1⟩ :=
        ih (fun r hr => hpos r (by omega))
      have hqn : 1 ≤ Sn.get_perpendicular_degree e := by
        rw [perp_degree_congr Sn S0 e hdu hdv]
        exact hq
      have hwn : Sn.get_weight n 0 e +
          f * nr * (other.get_weight n 0 oe - other.get_weight n 1 oe) =
          g1_new_weight_from S0 other f nr e oe n := by
        rw [hw0 n, g1_new_weight_from]
      have hcond : ¬ (Sn.get_weight n 0 e +
          f * nr * (other.get_weight n 0 oe - other.get_weight n 1 oe) < 0) := by
        rw [hwn]
        exact not_lt.mpr (hpos n (by omega))
      refine ⟨((Sn.set_weight
          (Sn.get_weight n 0 e + f * nr *
            (other.get_weight n 0 oe - other.get_weight n 1 oe)) n 1 e).set_point
          ((Sn.get_weight n 0 e /
              (Sn.get_weight n 0 e + f * nr *
                (other.get_weight n 0 oe - other.get_weight n 1 oe))) •
              Sn.get_point n 0 e +
            (f * nr /
              (Sn.get_weight n 0 e + f * nr *
                (other.get_weight n 0 oe - other.get_weight n 1 oe))) •
              (other.get_weight n 0 oe • other.get_point n 0 oe -
                other.get_weight n 1 oe • other.get_point n 1 oe)) n 1 e),
        ?_, ?_, ?_, ?_, ?_, ?_, ?_, ?_, ?_⟩
      · rw [g1_loop, hok]
        simp only [g1_row]
        rw [if_neg hcond]
      · rw [rational_set_point_degree_u, set_weight_degree_u, hdu]
      · rw [rational_set_point_degree_v, set_weight_degree_v, hdv]
      · intro r
        rw [get_weight_set_point, get_weight_set_weight_ci10 _ _ _ _ _ hqn]
        exact hw0 r
      · intro r
        rw [get_point_set_point_ci10 _ _ _ _ _
            (by rw [set_weight_perp_degree]; exact hqn),
          get_point_set_weight]
        exact hp0 r
      · intro r hr
        rw [get_weight_set_point,
          get_weight_set_weight_other_row _ _ _ _ _ _ (by omega)]
        exact hw1u r (by omega)
      · intro r hr
        rw [get_point_set_point_other_row _ _ _ _ _ _ (by omega),
          get_point_set_weight]
        exact hp1u r (by omega)
      · intro r hr
        by_cases hrn : r = n
        · subst hrn
          rw [get_weight_set_point, get_weight_set_weight_same, hwn]
        · rw [get_weight_set_point,
            get_weight_set_weight_other_row _ _ _ _ _ _ hrn]
          exact hw1 r (by omega)
      · intro r hr
        by_cases hrn : r = n
        · subst hrn
          rw [get_point_set_point_same, hwn, hw0, hp0]
        · rw [get_point_set_point_other_row _ _ _ _ _ _ hrn,
            get_point_set_weight]
          exact hp1 r (by omega)

end RationalBezierSurface



namespace RationalBezierSurface

/-- Abort of the rational G1 loop at the first row whose computed weight is
negative: the `NegativeWeightError` carries a state in which that row's
depth-1 point and weight are untouched, while every earlier row already holds
its new weight and the point computed from it. -/
theorem g1_loop_abort (S0 other : RationalBezierSurface) (f nr : ℚ)
    (e oe : SurfaceEdge) (hq : 1 ≤ S0.get_perpendicular_degree e) (k r : ℕ)
    (hrk : r < k)
    (hneg : g1_new_weight_from S0 other f nr e oe r < 0)
    (hpos : ∀ r' < r, 0 ≤ g1_new_weight_from S0 other f nr e oe r') :
    ∃ St, g1_loop S0 other f nr e oe k = .error (.negativeWeight, St) ∧
      (∀ s, St.get_weight s 0 e = S0.get_weight s 0 e) ∧
      (∀ s, St.get_point s 0 e = S0.get_point s 0 e) ∧
      (∀ s, r ≤ s → St.get_weight s 1 e = S0.get_weight s 1 e) ∧
      (∀ s, r ≤ s → St.get_point s 1 e = S0.get_point s 1 e) ∧
      (∀ r' < r, St.get_weight r' 1 e =
        g1_new_weight_from S0 other f nr e oe r') ∧
      (∀ r' < r, St.get_point r' 1 e =
        (St.get_weight r' 0 e / St.get_weight r' 1 e) • St.get_point r' 0 e +
        (f * nr / St.get_weight r' 1 e) •
          (other.get_weight r' 0 oe • other.get_point r' 0 oe -
            other.get_weight r' 1 oe • other.get_point r' 1 oe)) := by
  induction k with
  | zero => omega
  | succ n ih =>
      by_cases hrn : r = n
      · subst hrn
        obtain ⟨Sn, hok, hdu, hdv, hw0, hp0, hw1u, hp1u, hw1, hp1⟩ :=
          g1_loop_ok S0 other f nr e oe hq r hpos
        have hwn : Sn.get_weight r 0 e +
            f * nr * (other.get_weight r 0 oe - other.get_weight r 1 oe) =
            g1_new_weight_from S0 other f nr e oe r := by
          rw [hw0 r, g1_new_weight_from]
        have hcond : Sn.get_weight r 0 e +
            f * nr * (other.get_weight r 0 oe - other.get_weight r 1 oe)
            < 0 := by
          rw [hwn]
          exact hneg
        refine ⟨Sn, ?_, hw0, hp0, hw1u, hp1u, ?_, ?_⟩
        · rw [g1_loop, hok]
          simp only [g1_row]
          rw [if_pos hcond]
        · intro r' hr'
          exact hw1 r' hr'
        · intro r' hr'
          rw [hp1 r' hr', hw1 r' hr', hw0 r', hp0 r']
      · obtain ⟨St, herr, h1, h2, h3, h4, h5, h6⟩ := ih (by omega)
        exact ⟨St, by rw [g1_loop, herr], h1, h2, h3, h4, h5, h6⟩

theorem enforce_g0g1_eq_loop (S other : RationalBezierSurface) (f : ℚ)
    (e oe : SurfaceEdge)
    (hpd : S.get_parallel_degree e = other.get_parallel_degree oe)
    (hqd : S.get_perpendicular_degree e ≠ 0) :
    S.enforce_g0g1 other f e oe =
      g1_loop (post_g0 S other e oe) other f (n_ratio S other e oe) e oe
        (S.get_parallel_degree e + 1) := by
  rw [enforce_g0g1, enforce_g0, if_pos hpd]
  simp only [if_neg hqd]
  rfl

theorem post_g0_perp_degree (S other : RationalBezierSurface)
    (e oe : SurfaceEdge) :
    (post_g0 S other e oe).get_perpendicular_degree e =
      S.get_perpendicular_degree e :=
  perp_degree_congr _ _ _ (rational_g0_loop_degree_u _ _ _ _ _)
    (rational_g0_loop_degree_v _ _ _ _ _)

end RationalBezierSurface

open RationalBezierSurface in
/-- C6.  In rational G1 enforcement, for each row the new boundary-adjacent
weight `w_i1_b = w_i0_b + f*n_ratio*(w_im_a - w_im1_a)` is computed and checked
first: if it is negative, `NegativeWeightError` is raised before the depth-1
point (or weight) of that row is updated, with all earlier rows already
holding their new values; when every row's weight is non-negative the loop
completes and each stored point satisfies the G1 point formula whose
denominator is the newly stored weight. -/
theorem C6_rational_g1_weight_before_point (B A : RationalBezierSurface)
    (f : ℚ) (eB eA : SurfaceEdge)
    (hpd : B.get_parallel_degree eB = A.get_parallel_degree eA)
    (hqd : B.get_perpendicular_degree eB ≠ 0) :
    (∀ r ≤ B.get_parallel_degree eB,
      g1_new_weight B A f eB eA r < 0 →
      (∀ r' < r, 0 ≤ g1_new_weight B A f eB eA r') →
      ∃ St, B.enforce_g0g1 A f eB eA =
          .error (.negativeWeight, St) ∧
        St.get_point r 1 eB = (post_g0 B A eB eA).get_point r 1 eB ∧
        St.get_weight r 1 eB = (post_g0 B A eB eA).get_weight r 1 eB ∧
        (∀ r' < r, St.get_point r' 1 eB =
          (St.get_weight r' 0 eB / St.get_weight r' 1 eB) •
            St.get_point r' 0 eB +
          (f * n_ratio B A eB eA / St.get_weight r' 1 eB) •
            (A.get_weight r' 0 eA • A.get_point r' 0 eA -
              A.get_weight r' 1 eA • A.get_point r' 1 eA))) ∧
    ((∀ r ≤ B.get_parallel_degree eB, 0 ≤ g1_new_weight B A f eB eA r) →
      ∃ B', B.enforce_g0g1 A f eB eA = .ok B' ∧
        ∀ r ≤ B.get_parallel_degree eB,
          B'.get_weight r 1 eB = g1_new_weight B A f eB eA r ∧
          B'.get_point r 1 eB =
            (B'.get_weight r 0 eB / B'.get_weight r 1 eB) •
              B'.get_point r 0 eB +
            (f * n_ratio B A eB eA / B'.get_weight r 1 eB) •
              (A.get_weight r 0 eA • A.get_point r 0 eA -
                A.get_weight r 1 eA • A.get_point r 1 eA)) := by
  have hq : 1 ≤ (post_g0 B A eB eA).get_perpendicular_degree eB := by
    rw [post_g0_perp_degree]
    omega
  constructor
  · intro r hr hneg hpos
    obtain ⟨St, herr, hw0, hp0, hw1u, hp1u, hw1, hp1⟩ :=
      g1_loop_abort (post_g0 B A eB eA) A f (n_ratio B A eB eA) eB eA hq
        (B.get_parallel_degree eB + 1) r (by omega) hneg hpos
    refine ⟨St, ?_, hp1u r (le_refl r), hw1u r (le_refl r), hp1⟩
    rw [enforce_g0g1_eq_loop B A f eB eA hpd hqd]
    exact herr
  · intro hpos
    obtain ⟨B', hok, hdu, hdv, hw0, hp0, hw1u, hp1u, hw1, hp1⟩ :=
      g1_loop_ok (post_g0 B A eB eA) A f (n_ratio B A eB eA) eB eA hq
        (B.get_parallel_degree eB + 1) (fun r hrk => hpos r (by omega))
    refine ⟨B', ?_, ?_⟩
    · rw [enforce_g0g1_eq_loop B A f eB eA hpd hqd]
      exact hok
    · intro r hr
      have hrk : r < B.get_parallel_degree eB + 1 := by omega
      refine ⟨hw1 r hrk, ?_⟩
      rw [hp1 r hrk, hw1 r hrk, hw0 r, hp0 r]

open RationalBezierSurface in
/-- Witness for C6: joining the West edge of `c6B` to the East edge of `c6A`
with `f = 1` computes row-0 weight `1 + (1 - 3) = -1 < 0` and aborts with the
row-0 slots untouched. -/
theorem C6_witness :
    ∃ St, c6B.enforce_g0g1 c6A 1 .West .East =
        .error (.negativeWeight, St) ∧
      St.get_point 0 1 .West = (post_g0 c6B c6A .West .East).get_point 0 1
        .West ∧
      St.get_weight 0 1 .West = (post_g0 c6B c6A .West .East).get_weight 0 1
        .West ∧
      (∀ r' < 0, St.get_point r' 1 .West =
        (St.get_weight r' 0 .West / St.get_weight r' 1 .West) •
          St.get_point r' 0 .West +
        (1 * n_ratio c6B c6A .West .East / St.get_weight r' 1 .West) •
          (c6A.get_weight r' 0 .East • c6A.get_point r' 0 .East -
            c6A.get_weight r' 1 .East • c6A.get_point r' 1 .East)) := by
  have hnr : n_ratio c6B c6A .West .East = 1 := by
    norm_num [RationalBezierSurface.n_ratio,
      RationalBezierSurface.get_perpendicular_degree, c6B, c6A]
  have hS0w : (post_g0 c6B c6A .West .East).get_weight 0 0 .West =
      c6A.get_weight 0 0 .East :=
    g0_loop_get_weight c6B c6A .West .East _ 0 (by
      norm_num [RationalBezierSurface.get_parallel_degree, c6B])
  have hneg : g1_new_weight c6B c6A 1 .West .East 0 < 0 := by
    rw [g1_new_weight, g1_new_weight_from, hS0w, hnr]
    norm_num [RationalBezierSurface.get_weight, c6A]
  exact (C6_rational_g1_weight_before_point c6B c6A 1 .West .East rfl
      (by decide)).1 0 (by decide) hneg
    (fun r' hr' => absurd hr' (Nat.not_lt_zero r'))

open RationalBezierSurface in
/-- C10 (implicit).  In rational G1 enforcement a computed row-1 weight
exactly equal to 0 does not raise `NegativeWeightError` (the check is
strictly less-than-zero): the zero weight is stored in the grid and the
subsequent point update for that row divides by that stored zero weight, so
the non-negativity invariant is preserved only in the weak sense `w ≥ 0`,
with no guard against a zero denominator in the point formula. -/
theorem C10_zero_weight_unguarded (B A : RationalBezierSurface) (f : ℚ)
    (eB eA : SurfaceEdge)
    (hpd : B.get_parallel_degree eB = A.get_parallel_degree eA)
    (hqd : B.get_perpendicular_degree eB ≠ 0) (r : ℕ)
    (hr : r ≤ B.get_parallel_degree eB)
    (hzero : g1_new_weight B A f eB eA r = 0)
    (hpos : ∀ r' ≤ B.get_parallel_degree eB,
      0 ≤ g1_new_weight B A f eB eA r') :
    ∃ B', B.enforce_g0g1 A f eB eA = .ok B' ∧
      B'.get_weight r 1 eB = 0 ∧
      B'.get_point r 1 eB =
        (B'.get_weight r 0 eB / 0) • B'.get_point r 0 eB +
        (f * n_ratio B A eB eA / 0) •
          (A.get_weight r 0 eA • A.get_point r 0 eA -
            A.get_weight r 1 eA • A.get_point r 1 eA) := by
  have hq : 1 ≤ (post_g0 B A eB eA).get_perpendicular_degree eB := by
    rw [post_g0_perp_degree]
    omega
  obtain ⟨B', hok, hdu, hdv, hw0, hp0, hw1u, hp1u, hw1, hp1⟩ :=
    g1_loop_ok (post_g0 B A eB eA) A f (n_ratio B A eB eA) eB eA hq
      (B.get_parallel_degree eB + 1) (fun s hsk => hpos s (by omega))
  have hrk : r < B.get_parallel_degree eB + 1 := by omega
  simp only [g1_new_weight] at hzero
  refine ⟨B', ?_, ?_, ?_⟩
  · rw [enforce_g0g1_eq_loop B A f eB eA hpd hqd]
    exact hok
  · rw [hw1 r hrk, hzero]
  · rw [hp1 r hrk, hzero, hw0 r, hp0 r]

open RationalBezierSurface in
/-- Witness for C10: row weights `1 + (1 - 2) = 0` are stored without raising
and the stored points divide by the zero weight. -/
theorem C10_witness :
    ∃ B', c6B.enforce_g0g1 c10A 1 .West .East = .ok B' ∧
      B'.get_weight 0 1 .West = 0 ∧
      B'.get_point 0 1 .West =
        (B'.get_weight 0 0 .West / 0) • B'.get_point 0 0 .West +
        (1 * n_ratio c6B c10A .West .East / 0) •
          (c10A.get_weight 0 0 .East • c10A.get_point 0 0 .East -
            c10A.get_weight 0 1 .East • c10A.get_point 0 1 .East) := by
  have hnr : n_ratio c6B c10A .West .East = 1 := by
    norm_num [RationalBezierSurface.n_ratio,
      RationalBezierSurface.get_perpendicular_degree, c6B, c10A]
  have hval : ∀ r' ≤ c6B.get_parallel_degree .West,
      g1_new_weight c6B c10A 1 .West .East r' = 0 := by
    intro r' hr'
    have hS0w : (post_g0 c6B c10A .West .East).get_weight r' 0 .West =
        c10A.get_weight r' 0 .East :=
      g0_loop_get_weight c6B c10A .West .East _ r' (by
        simp only [RationalBezierSurface.get_parallel_degree, c6B] at hr' ⊢
        omega)
    rw [g1_new_weight, g1_new_weight_from, hS0w, hnr]
    norm_num [RationalBezierSurface.get_weight, c10A]
  exact C10_zero_weight_unguarded c6B c10A 1 .West .East rfl (by decide) 0
    (by decide) (hval 0 (by decide))
    (fun r' hr' => le_of_eq (hval r' hr').symm)

/-- C5.  Constructing a `RationalBezierSurface` or a `NURBSSurface` with
at least one strictly negative entry inside the weight grid raises
`NegativeWeightError`; with all weights non-negative (and, for NURBS, the
asserted knot-count/shape preconditions satisfied) construction succeeds. -/
theorem C5_negative_weight_check :
    (∀ (du dv : ℕ) (P : ℕ → ℕ → V3) (w : ℕ → ℕ → ℚ),
      ((∃ i, i ≤ du ∧ ∃ j, j ≤ dv ∧ w i j < 0) →
        RationalBezierSurface.make du dv P w = .error .negativeWeight) ∧
      ((∀ i ≤ du, ∀ j ≤ dv, 0 ≤ w i j) →
        RationalBezierSurface.make du dv P w = .ok ⟨du, dv, P, w⟩)) ∧
    (∀ (P : ℕ → ℕ → V3) (ku kv : List ℚ) (w : ℕ → ℕ → ℚ)
      (du dv Nu Nv : ℕ),
      ku.length = Nu + du + 1 → kv.length = Nv + dv + 1 →
      ((∃ i, i < Nu ∧ ∃ j, j < Nv ∧ w i j < 0) →
        NURBSSurface.make P ku kv w du dv Nu Nv = .error .negativeWeight) ∧
      ((∀ i < Nu, ∀ j < Nv, 0 ≤ w i j) →
        NURBSSurface.make P ku kv w du dv Nu Nv =
          .ok ⟨Nu, Nv, P, ku, kv, w, du, dv⟩)) := by
  constructor
  · intro du dv P w
    constructor
    · rintro ⟨i, hi, j, hj, hneg⟩
      have hnot : ¬ (∀ a < du + 1, ∀ b < dv + 1, 0 ≤ w a b) := by
        intro hall
        exact absurd (hall i (by omega) j (by omega)) (not_le.mpr hneg)
      rw [RationalBezierSurface.make, if_neg hnot]
    · intro hall
      have hcond : ∀ a < du + 1, ∀ b < dv + 1, 0 ≤ w a b := by
        intro a ha b hb
        exact hall a (by omega) b (by omega)
      rw [RationalBezierSurface.make, if_pos hcond]
  · intro P ku kv w du dv Nu Nv hku hkv
    constructor
    · rintro ⟨i, hi, j, hj, hneg⟩
      have hnot : ¬ (∀ a < Nu, ∀ b < Nv, 0 ≤ w a b) := by
        intro hall
        exact absurd (hall i hi j hj) (not_le.mpr hneg)
      rw [NURBSSurface.make, if_pos ⟨hku, hkv⟩, if_neg hnot]
    · intro hall
      rw [NURBSSurface.make, if_pos ⟨hku, hkv⟩, if_pos hall]

/-- Witness for C5: a concrete negative-entry grid fails for both surface
kinds and the all-ones grid succeeds for both. -/
theorem C5_witness :
    RationalBezierSurface.make 1 1 c5P c5w_neg = .error .negativeWeight ∧
    RationalBezierSurface.make 1 1 c5P c5w_one = .ok ⟨1, 1, c5P, c5w_one⟩ ∧
    NURBSSurface.make c5P c5knots c5knots c5w_neg 1 1 2 2 =
      .error .negativeWeight ∧
    NURBSSurface.make c5P c5knots c5knots c5w_one 1 1 2 2 =
      .ok ⟨2, 2, c5P, c5knots, c5knots, c5w_one, 1, 1⟩ :=
  ⟨(C5_negative_weight_check.1 1 1 c5P c5w_neg).1
      ⟨0, by omega, 0, by omega, by norm_num [c5w_neg]⟩,
    (C5_negative_weight_check.1 1 1 c5P c5w_one).2
      (fun i hi j hj => by norm_num [c5w_one]),
    (C5_negative_weight_check.2 c5P c5knots c5knots c5w_neg 1 1 2 2 rfl
        rfl).1 ⟨0, by omega, 0, by omega, by norm_num [c5w_neg]⟩,
    (C5_negative_weight_check.2 c5P c5knots c5knots c5w_one 1 1 2 2 rfl
        rfl).2 (fun i hi j hj => by norm_num [c5w_one])⟩

/-- The branch structure of `cox_de_boor` is value-equal to the plain
two-term recurrence. -/
theorem cox_de_boor_succ (ks : List ℚ) (t : ℚ) (p i : ℕ) :
    cox_de_boor ks t (p + 1) i =
      ((t - knotD ks i) / (knotD ks (i + (p + 1)) - knotD ks i)) *
        cox_de_boor ks t p i +
      ((knotD ks (i + (p + 1) + 1) - t) /
        (knotD ks (i + (p + 1) + 1) - knotD ks (i + 1))) *
        cox_de_boor ks t p (i + 1) := by
  rw [cox_de_boor]
  set f := (t - knotD ks i) / (knotD ks (i + (p + 1)) - knotD ks i) with hf
  set g := (knotD ks (i + (p + 1) + 1) - t) /
    (knotD ks (i + (p + 1) + 1) - knotD ks (i + 1)) with hg
  by_cases h1 : f = 0
  · by_cases h2 : g = 0
    · rw [if_pos ⟨h1, h2⟩, h1, h2]
      ring
    · have hn1 : ¬ (f = 0 ∧ g = 0) := by tauto
      have hn2 : ¬ (f ≠ 0 ∧ g = 0) := by tauto
      rw [if_neg hn1, if_neg hn2, if_pos ⟨h1, h2⟩, h1]
      ring
  · by_cases h2 : g = 0
    · have hn1 : ¬ (f = 0 ∧ g = 0) := by tauto
      rw [if_neg hn1, if_pos ⟨h1, h2⟩, h2]
      ring
    · have hn1 : ¬ (f = 0 ∧ g = 0) := by tauto
      have hn2 : ¬ (f ≠ 0 ∧ g = 0) := by tauto
      have hn3 : ¬ (f = 0 ∧ g ≠ 0) := by tauto
      rw [if_neg hn1, if_neg hn2, if_neg hn3]

theorem list_range_map_sum (f : ℕ → ℚ) (n : ℕ) :
    ((List.range n).map f).sum = ∑ i in Finset.range n, f i := by
  induction n with
  | zero => rfl
  | succ m ih =>
      rw [List.range_succ, List.map_append, List.sum_append,
        Finset.sum_range_succ, ih]
      simp

theorem knot_mono (ks : List ℚ)
    (hsorted : ∀ j, j + 1 < ks.length → knotD ks j ≤ knotD ks (j + 1))
    (a b : ℕ) (hab : a ≤ b) (hb : b < ks.length) :
    knotD ks a ≤ knotD ks b := by
  induction b with
  | zero =>
      have : a = 0 := by omega
      subst this
      exact le_refl _
  | succ m ih =>
      by_cases ham : a = m + 1
      · subst ham
        exact le_refl _
      · have ha : a ≤ m := by omega
        exact le_trans (ih ha (by omega)) (hsorted m hb)

/-- For an interior parameter the linear scan finds the unique non-degenerate
half-open span containing `t` (the closed-top fallback is not needed). -/
theorem find_span_spec (ks : List ℚ) (t : ℚ)
    (_hsorted : ∀ j, j + 1 < ks.length → knotD ks j ≤ knotD ks (j + 1))
    (hlen : 2 ≤ ks.length) (h0 : knotD ks 0 ≤ t)
    (hL : t < knotD ks (ks.length - 1)) :
    ∃ j, find_span ks t = some j ∧ j ∈ possible_span_indices ks ∧
      knotD ks j ≤ t ∧ t < knotD ks (j + 1) := by
  have hexists : ∃ j, j < ks.length - 1 ∧ knotD ks j ≤ t ∧
      t < knotD ks (j + 1) := by
    set T : Finset ℕ :=
      (Finset.range ks.length).filter (fun j => knotD ks j ≤ t) with hT
    have h0T : (0 : ℕ) ∈ T := by
      rw [hT, Finset.mem_filter, Finset.mem_range]
      exact ⟨by omega, h0⟩
    have hTne : T.Nonempty := ⟨0, h0T⟩
    set js : ℕ := T.max' hTne with hjs
    have hjmem : js ∈ T := T.max'_mem hTne
    rw [hT, Finset.mem_filter, Finset.mem_range] at hjmem
    have hjlast : js ≠ ks.length - 1 := by
      intro heq
      rw [heq] at hjmem
      exact absurd hjmem.2 (not_le.mpr hL)
    have hjlt : js < ks.length - 1 := by omega
    have hnot : js + 1 ∉ T := by
      intro hmem
      have := T.le_max' (js + 1) hmem
      omega
    have hgt : t < knotD ks (js + 1) := by
      by_contra hle
      exact hnot (by
        rw [hT, Finset.mem_filter, Finset.mem_range]
        exact ⟨by omega, le_of_not_lt hle⟩)
    exact ⟨js, hjlt, hjmem.2, hgt⟩
  obtain ⟨j, hjlt, hjle, hjgt⟩ := hexists
  have hjmem : j ∈ possible_span_indices ks := by
    rw [possible_span_indices, List.mem_filter, List.mem_range]
    refine ⟨hjlt, ?_⟩
    rw [decide_eq_true_iff]
    exact ne_of_lt (lt_of_le_of_lt hjle hjgt)
  have hsome : ((possible_span_indices ks).find?
      (fun j => decide (knotD ks j ≤ t ∧ t < knotD ks (j + 1)))).isSome := by
    rw [List.find?_isSome]
    exact ⟨j, hjmem, by rw [decide_eq_true_iff]; exact ⟨hjle, hjgt⟩⟩
  obtain ⟨j0, hj0⟩ := Option.isSome_iff_exists.mp hsome
  have hpred := List.find?_some hj0
  rw [decide_eq_true_iff] at hpred
  have hmem0 := List.mem_of_find?_eq_some hj0
  refine ⟨j0, ?_, hmem0, hpred.1, hpred.2⟩
  rw [find_span, hj0]

/-- At degree 0 exactly the found span index carries basis value 1. -/
theorem cox_de_boor_zero_eq (ks : List ℚ) (t : ℚ) (j0 : ℕ)
    (hfind : find_span ks t = some j0)
    (hmem : j0 ∈ possible_span_indices ks) (i : ℕ) :
    cox_de_boor ks t 0 i = if i = j0 then 1 else 0 := by
  rw [cox_de_boor]
  by_cases hij : i = j0
  · subst hij
    rw [if_pos ⟨hmem, hfind⟩, if_pos rfl]
  · have : ¬ (i ∈ possible_span_indices ks ∧ find_span ks t = some i) := by
      rintro ⟨hm, hf⟩
      rw [hfind] at hf
      exact hij (Option.some_inj.mp hf.symm)
    rw [if_neg this, if_neg hij]

/-- Local support of the Cox-de Boor basis for an interior parameter:
a nonzero `N_{i,p}(t)` forces `k_i ≤ t < k_{i+p+1}`. -/
theorem cox_de_boor_support (ks : List ℚ) (t : ℚ)
    (hsorted : ∀ j, j + 1 < ks.length → knotD ks j ≤ knotD ks (j + 1))
    (hlen : 2 ≤ ks.length) (h0 : knotD ks 0 ≤ t)
    (hL : t < knotD ks (ks.length - 1)) :
    ∀ p i, i + p + 1 < ks.length → cox_de_boor ks t p i ≠ 0 →
      knotD ks i ≤ t ∧ t < knotD ks (i + p + 1) := by
  intro p
  induction p with
  | zero =>
      intro i hib hne
      obtain ⟨j0, hfind, hmem, hjle, hjlt⟩ :=
        find_span_spec ks t hsorted hlen h0 hL
      rw [cox_de_boor_zero_eq ks t j0 hfind hmem i] at hne
      by_cases hij : i = j0
      · subst hij
        exact ⟨hjle, hjlt⟩
      · rw [if_neg hij] at hne
        exact absurd rfl hne
  | succ p ih =>
      intro i hib hne
      rw [cox_de_boor_succ] at hne
      by_cases hA : ((t - knotD ks i) /
          (knotD ks (i + (p + 1)) - knotD ks i)) * cox_de_boor ks t p i = 0
      · have hB : ((knotD ks (i + (p + 1) + 1) - t) /
            (knotD ks (i + (p + 1) + 1) - knotD ks (i + 1))) *
            cox_de_boor ks t p (i + 1) ≠ 0 := by
          intro hB0
          rw [hA, hB0] at hne
          exact hne (by ring)
        have hcox : cox_de_boor ks t p (i + 1) ≠ 0 :=
          fun h => hB (by rw [h]; ring)
        have hbound : (i + 1) + p + 1 < ks.length := by omega
        obtain ⟨hle, hlt⟩ := ih (i + 1) hbound hcox
        constructor
        · exact le_trans (hsorted i (by omega)) hle
        · have : (i + 1) + p + 1 = i + (p + 1) + 1 := by omega
          rw [this] at hlt
          exact hlt
      · have hcox : cox_de_boor ks t p i ≠ 0 :=
          fun h => hA (by rw [h]; ring)
        have hbound : i + p + 1 < ks.length := by omega
        obtain ⟨hle, hlt⟩ := ih i hbound hcox
        refine ⟨hle, lt_of_lt_of_le hlt ?_⟩
        have heq : i + (p + 1) + 1 = (i + p + 1) + 1 := by omega
        rw [heq]
        exact hsorted (i + p + 1) (by omega)

/-- Clamped-at-the-start vanishing: with `k_0 = k_{q+1}` and `t` strictly to
the right of `k_0`, the leftmost degree-`q` basis function vanishes. -/
theorem cox_de_boor_left_clamped (ks : List ℚ) (t : ℚ)
    (hsorted : ∀ j, j + 1 < ks.length → knotD ks j ≤ knotD ks (j + 1))
    (hlen : 2 ≤ ks.length) (hL : t < knotD ks (ks.length - 1)) (q : ℕ)
    (hq1 : q + 1 < ks.length) (hclamp : knotD ks 0 = knotD ks (q + 1))
    (ht0 : knotD ks 0 < t) : cox_de_boor ks t q 0 = 0 := by
  by_contra hne
  obtain ⟨hle, hlt⟩ := cox_de_boor_support ks t hsorted hlen (le_of_lt ht0)
    hL q 0 (by omega) hne
  rw [show (0 : ℕ) + q + 1 = q + 1 from by omega, ← hclamp] at hlt
  exact absurd ht0 (not_lt.mpr (le_of_lt hlt))

/-- Clamped-at-the-end vanishing: with `k_i = k_{L-1}` at `i + q + 1 = L - 1`
and `t` strictly to the left of `k_{L-1}`, the rightmost degree-`q` basis
function vanishes. -/
theorem cox_de_boor_right_clamped (ks : List ℚ) (t : ℚ)
    (hsorted : ∀ j, j + 1 < ks.length → knotD ks j ≤ knotD ks (j + 1))
    (hlen : 2 ≤ ks.length) (h0 : knotD ks 0 ≤ t)
    (hL : t < knotD ks (ks.length - 1)) (q i : ℕ)
    (hi : i + q + 1 = ks.length - 1)
    (hclamp : knotD ks i = knotD ks (ks.length - 1)) :
    cox_de_boor ks t q i = 0 := by
  by_contra hne
  obtain ⟨hle, hlt⟩ := cox_de_boor_support ks t hsorted hlen h0 hL q i
    (by omega) hne
  rw [hclamp] at hle
  rw [hi] at hlt
  exact absurd hlt (not_lt.mpr hle)

/-- Partition of unity for the Cox-de Boor basis on a clamped knot vector, by
induction on the degree: the two-term recurrence telescopes because adjacent
`f`/`g` coefficients over a common span sum to 1, the boundary terms vanish
by clamping, and at degree 0 exactly one span indicator is set. -/
theorem cox_de_boor_partition_aux (ks : List ℚ) (t : ℚ)
    (hsorted : ∀ j, j + 1 < ks.length → knotD ks j ≤ knotD ks (j + 1))
    (h0 : knotD ks 0 < t) (hL : t < knotD ks (ks.length - 1)) :
    ∀ q, q + 2 ≤ ks.length → knotD ks 0 = knotD ks q →
      knotD ks (ks.length - 1 - q) = knotD ks (ks.length - 1) →
      ∑ i in Finset.range (ks.length - q - 1), cox_de_boor ks t q i = 1 := by
  intro q
  induction q with
  | zero =>
      intro hlen hcl hcr
      obtain ⟨j0, hfind, hmem, hjle, hjlt⟩ :=
        find_span_spec ks t hsorted (by omega) (le_of_lt h0) hL
      have hterm : ∀ i ∈ Finset.range (ks.length - 0 - 1),
          cox_de_boor ks t 0 i = if i = j0 then (1 : ℚ) else 0 :=
        fun i _ => cox_de_boor_zero_eq ks t j0 hfind hmem i
      rw [Finset.sum_congr rfl hterm,
        Finset.sum_ite_eq' (Finset.range (ks.length - 0 - 1)) j0
          (fun _ => (1 : ℚ))]
      have hj0lt : j0 < ks.length - 1 := by
        have := hmem
        rw [possible_span_indices, List.mem_filter, List.mem_range] at this
        exact this.1
      rw [if_pos (by rw [Finset.mem_range]; omega)]
  | succ q ih =>
      intro hlen hcl hcr
      have hq1L : q + 1 < ks.length := by omega
      have hclq : knotD ks 0 = knotD ks q := by
        refine le_antisymm (knot_mono ks hsorted 0 q (by omega) (by omega)) ?_
        rw [hcl]
        exact knot_mono ks hsorted q (q + 1) (by omega) (by omega)
      have hcrq : knotD ks (ks.length - 1 - q) = knotD ks (ks.length - 1) := by
        refine le_antisymm
          (knot_mono ks hsorted (ks.length - 1 - q) (ks.length - 1) (by omega)
            (by omega)) ?_
        rw [← hcr]
        exact knot_mono ks hsorted (ks.length - 1 - (q + 1))
          (ks.length - 1 - q) (by omega) (by omega)
      have hIH := ih (by omega) hclq hcrq
      set M : ℕ := ks.length - (q + 1) - 1 with hM
      have hstep : ∀ i ∈ Finset.range M, cox_de_boor ks t (q + 1) i =
          ((t - knotD ks i) / (knotD ks (i + q + 1) - knotD ks i)) *
            cox_de_boor ks t q i +
          ((knotD ks ((i + 1) + q + 1) - t) /
            (knotD ks ((i + 1) + q + 1) - knotD ks (i + 1))) *
            cox_de_boor ks t q (i + 1) := by
        intro i _
        rw [cox_de_boor_succ]
        have e1 : i + (q + 1) = i + q + 1 := by omega
        have e2 : i + q + 1 + 1 = (i + 1) + q + 1 := by omega
        rw [e1, e2]
      rw [Finset.sum_congr rfl hstep, Finset.sum_add_distrib]
      have hF0 : ((t - knotD ks M) / (knotD ks (M + q + 1) - knotD ks M)) *
          cox_de_boor ks t q M = 0 := by
        rw [cox_de_boor_right_clamped ks t hsorted (by omega) (le_of_lt h0)
          hL q M (by omega) (by
            have eM : M = ks.length - 1 - (q + 1) := by omega
            rw [eM]
            exact hcr), mul_zero]
      have hG0 : ((knotD ks (0 + q + 1) - t) /
          (knotD ks (0 + q + 1) - knotD ks 0)) * cox_de_boor ks t q 0 = 0 := by
        rw [cox_de_boor_left_clamped ks t hsorted (by omega) hL q hq1L hcl h0,
          mul_zero]
      have hFsum : ∑ i in Finset.range M,
          ((t - knotD ks i) / (knotD ks (i + q + 1) - knotD ks i)) *
            cox_de_boor ks t q i
          = ∑ i in Finset.range (M + 1),
            ((t - knotD ks i) / (knotD ks (i + q + 1) - knotD ks i)) *
              cox_de_boor ks t q i := by
        rw [Finset.sum_range_succ, hF0, add_zero]
      have hGsum : ∑ i in Finset.range M,
          ((knotD ks ((i + 1) + q + 1) - t) /
            (knotD ks ((i + 1) + q + 1) - knotD ks (i + 1))) *
            cox_de_boor ks t q (i + 1)
          = ∑ i in Finset.range (M + 1),
            ((knotD ks (i + q + 1) - t) /
              (knotD ks (i + q + 1) - knotD ks i)) *
              cox_de_boor ks t q i := by
        rw [Finset.sum_range_succ' (fun i =>
          ((knotD ks (i + q + 1) - t) /
            (knotD ks (i + q + 1) - knotD ks i)) * cox_de_boor ks t q i) M]
        rw [hG0, add_zero]
      rw [hFsum, hGsum, ← Finset.sum_add_distrib]
      have hpoint : ∀ i ∈ Finset.range (M + 1),
          ((t - knotD ks i) / (knotD ks (i + q + 1) - knotD ks i)) *
            cox_de_boor ks t q i +
          ((knotD ks (i + q + 1) - t) /
            (knotD ks (i + q + 1) - knotD ks i)) * cox_de_boor ks t q i
          = cox_de_boor ks t q i := by
        intro i hi
        rw [Finset.mem_range] at hi
        by_cases hz : cox_de_boor ks t q i = 0
        · rw [hz, mul_zero, mul_zero, add_zero]
        · obtain ⟨hle, hlt⟩ := cox_de_boor_support ks t hsorted (by omega)
            (le_of_lt h0) hL q i (by omega) hz
          have hD : knotD ks (i + q + 1) - knotD ks i ≠ 0 :=
            sub_ne_zero.mpr (ne_of_gt (lt_of_le_of_lt hle hlt))
          rw [← add_mul, div_add_div_same,
            show t - knotD ks i + (knotD ks (i + q + 1) - t) =
              knotD ks (i + q + 1) - knotD ks i from by ring,
            div_self hD, one_mul]
      rw [Finset.sum_congr rfl hpoint]
      have hM1 : M + 1 = ks.length - q - 1 := by omega
      rw [hM1]
      exact hIH

/-- C7.  For every valid clamped knot vector (non-decreasing, first and
last knot each of multiplicity `p+1`) and every degree `p` from 1 to 5, the
Cox-de Boor basis functions evaluated at any interior parameter `t` sum to
exactly 1 over all control-point indices (`n_control = len(knots) - p - 1`,
the count fixed by the constructor's knot-count assert). -/
theorem C7_partition_of_unity (ks : List ℚ) (t : ℚ) (p : ℕ)
    (_hp1 : 1 ≤ p) (_hp5 : p ≤ 5)
    (hsorted : ∀ j, j + 1 < ks.length → knotD ks j ≤ knotD ks (j + 1))
    (hlen : p + 2 ≤ ks.length)
    (hclampL : knotD ks 0 = knotD ks p)
    (hclampR : knotD ks (ks.length - 1 - p) = knotD ks (ks.length - 1))
    (h0 : knotD ks 0 < t) (hL : t < knotD ks (ks.length - 1)) :
    (basis_functions ks t p (ks.length - p - 1)).sum = 1 := by
  rw [basis_functions, list_range_map_sum]
  exact cox_de_boor_partition_aux ks t hsorted h0 hL p (by omega) hclampL
    hclampR

/-- Witness for C7: the degree-2 clamped vector `[0,0,0,1/2,1,1,1]` at the
interior parameter `1/4`. -/
theorem C7_witness :
    (basis_functions c7knots (1/4) 2 (c7knots.length - 2 - 1)).sum = 1 := by
  have k0 : knotD c7knots 0 = 0 := rfl
  have k1 : knotD c7knots 1 = 0 := rfl
  have k2 : knotD c7knots 2 = 0 := rfl
  have k3 : knotD c7knots 3 = 1/2 := rfl
  have k4 : knotD c7knots 4 = 1 := rfl
  have k5 : knotD c7knots 5 = 1 := rfl
  have k6 : knotD c7knots 6 = 1 := rfl
  have hlen7 : c7knots.length = 7 := rfl
  refine C7_partition_of_unity c7knots (1/4) 2 (by omega) (by omega) ?_
    (by omega) ?_ ?_ ?_ ?_
  · intro j hj
    rw [hlen7] at hj
    have hj6 : j < 6 := by omega
    interval_cases j <;>
      simp only [k0, k1, k2, k3, k4, k5, k6] <;> norm_num
  · rw [k0, k2]
  · rw [hlen7]
    rw [show (7 : ℕ) - 1 - 2 = 4 from rfl, show (7 : ℕ) - 1 = 6 from rfl,
      k4, k6]
  · rw [k0]
    norm_num
  · rw [hlen7, show (7 : ℕ) - 1 = 6 from rfl, k6]
    norm_num

theorem range_map_getD {α : Type} (f : ℕ → α) (n k : ℕ) (hk : k < n)
    (d : α) : ((List.range n).map f).getD k d = f k := by
  rw [List.getD_eq_getElem?_getD, List.getElem?_map, List.getElem?_range hk]
  rfl

theorem half_np_pi_pos : (0 : ℚ) < 1/2 * np_pi := by
  norm_num [np_pi]

theorem angle_count_ge_three (d : ℚ) (hd : 0 < d) : 3 ≤ angle_count d := by
  have hq0 : 0 ≤ ⌊d / (1/2 * np_pi)⌋ :=
    Int.floor_nonneg.mpr (le_of_lt (div_pos hd half_np_pi_pos))
  rw [angle_count]
  by_cases hm : pymod d (1/2 * np_pi) = 0
  · rw [if_pos hm]
    have h1 : 1 ≤ ⌊d / (1/2 * np_pi)⌋ := by
      by_contra hlt
      have hq : ⌊d / (1/2 * np_pi)⌋ = 0 := by omega
      rw [pymod, hq, Int.cast_zero, mul_zero, sub_zero] at hm
      exact absurd hm (ne_of_gt hd)
    omega
  · rw [if_neg hm]
    omega

theorem angle_count_odd (d : ℚ) (hd : 0 < d) : Odd (angle_count d).toNat := by
  have hq0 : 0 ≤ ⌊d / (1/2 * np_pi)⌋ :=
    Int.floor_nonneg.mpr (le_of_lt (div_pos hd half_np_pi_pos))
  rw [Nat.odd_iff, angle_count]
  by_cases hm : pymod d (1/2 * np_pi) = 0
  · rw [if_pos hm]
    omega
  · rw [if_neg hm]
    omega

theorem linspaceQ_ok (s e : ℚ) (N : ℤ) (hN : 2 ≤ N) :
    ∃ l, linspaceQ s e N = .ok l ∧ l.length = N.toNat ∧
      l.getD 0 0 = s ∧ l.getD (l.length - 1) 0 = e := by
  refine ⟨(List.range N.toNat).map
    (fun (k : ℕ) => s + (e - s) * (k : ℚ) / ((N : ℚ) - 1)), ?_, ?_, ?_, ?_⟩
  · rw [linspaceQ, if_neg (by omega), if_neg (by omega)]
  · simp
  · rw [range_map_getD _ _ _ (by omega)]
    norm_num
  · rw [List.length_map, List.length_range,
      range_map_getD _ _ _ (by omega)]
    have hcast : ((N.toNat - 1 : ℕ) : ℚ) = (N : ℚ) - 1 := by
      have h1 : ((N.toNat : ℤ) : ℚ) = (N : ℚ) := by
        rw [Int.toNat_of_nonneg (by omega)]
      rw [Nat.cast_sub (by omega), Nat.cast_one]
      rw [show ((N.toNat : ℕ) : ℚ) = ((N.toNat : ℤ) : ℚ) from by push_cast; rfl,
        h1]
    rw [hcast]
    have hne : (N : ℚ) - 1 ≠ 0 := by
      have : (2 : ℚ) ≤ (N : ℚ) := by exact_mod_cast hN
      intro h
      rw [sub_eq_zero] at h
      rw [h] at this
      norm_num at this
    rw [mul_div_assoc, div_self hne, mul_one]
    ring

/-- C8 counterexample: the NURBS revolution builder takes the signed angle
difference, so for `start = pi/2 > end = 0` (distinct angles) the computed
sample count is `2*floor(-1) + 1 = -1` and `np.linspace` raises `ValueError`;
the claim instead predicts an odd sample count `2*floor(|diff|/(pi/2)) + 1 =
3` including both endpoints. -/
theorem C8_counterexample :
    determine_angle_distribution_nurbs (1/2 * np_pi) 0 =
      .error .valueError ∧
    ∀ l : List ℚ, determine_angle_distribution_nurbs (1/2 * np_pi) 0 ≠
      .ok l := by
  have hc : (1/2 * np_pi : ℚ) ≠ 0 := ne_of_gt half_np_pi_pos
  have hdiff : (0 : ℚ) - 1/2 * np_pi = -(1/2 * np_pi) := by ring
  have hdiv : ((0 : ℚ) - 1/2 * np_pi) / (1/2 * np_pi) = -1 := by
    rw [hdiff, neg_div, div_self hc]
  have hfloor : ⌊((0 : ℚ) - 1/2 * np_pi) / (1/2 * np_pi)⌋ = -1 := by
    rw [hdiv, show ((-1 : ℚ)) = ((-1 : ℤ) : ℚ) from by norm_num,
      Int.floor_intCast]
  have hmod : pymod ((0 : ℚ) - 1/2 * np_pi) (1/2 * np_pi) = 0 := by
    rw [pymod, hfloor]
    push_cast
    ring
  have hcount : angle_count ((0 : ℚ) - 1/2 * np_pi) = -1 := by
    rw [angle_count, if_pos hmod, hfloor]
    norm_num
  have hmain : determine_angle_distribution_nurbs (1/2 * np_pi) 0 =
      .error .valueError := by
    rw [determine_angle_distribution_nurbs]
    rw [if_neg (by rw [hdiff]; exact neg_ne_zero.mpr hc), hcount, linspaceQ,
      if_pos (by omega)]
  exact ⟨hmain, fun l h => by rw [hmain] at h; exact Except.noConfusion h⟩

/-- C8 (amended).  For distinct start and end angles the rational
revolution builder (which takes `abs` of the difference) produces
`2*floor(|diff|/(pi/2)) + 1` angle samples when the difference is an exact
multiple of 90 degrees and `+ 3` otherwise — always an odd count including
both endpoint angles — and raises `InvalidGeometryError` for identical
angles.  The NURBS builder omits the `abs`, so the same count and endpoint
guarantees hold only when the end angle exceeds the start angle (for
`end < start` it produces a negative or single-sample count, see the
counterexample). -/
theorem C8_angle_distribution (sa ea : ℚ) :
    (sa ≠ ea → ∃ l, determine_angle_distribution_rational sa ea = .ok l ∧
      l.length = (2 * ⌊|ea - sa| / (1/2 * np_pi)⌋ +
        (if pymod |ea - sa| (1/2 * np_pi) = 0 then 1 else 3)).toNat ∧
      Odd l.length ∧ l.getD 0 0 = sa ∧ l.getD (l.length - 1) 0 = ea) ∧
    (sa = ea →
      determine_angle_distribution_rational sa ea =
        .error .invalidGeometry ∧
      determine_angle_distribution_nurbs sa ea =
        .error .invalidGeometry) ∧
    (sa < ea → ∃ l, determine_angle_distribution_nurbs sa ea = .ok l ∧
      l.length = (2 * ⌊(ea - sa) / (1/2 * np_pi)⌋ +
        (if pymod (ea - sa) (1/2 * np_pi) = 0 then 1 else 3)).toNat ∧
      Odd l.length ∧ l.getD 0 0 = sa ∧ l.getD (l.length - 1) 0 = ea) := by
  refine ⟨?_, ?_, ?_⟩
  · intro hne
    have habs : (0 : ℚ) < |ea - sa| :=
      abs_pos.mpr (sub_ne_zero.mpr (Ne.symm hne))
    obtain ⟨l, hok, hlen, hhead, hlast⟩ :=
      linspaceQ_ok sa ea (angle_count |ea - sa|)
        (by have := angle_count_ge_three _ habs; omega)
    refine ⟨l, ?_, ?_, ?_, hhead, hlast⟩
    · rw [determine_angle_distribution_rational,
        if_neg (ne_of_gt habs), hok]
    · rw [hlen, angle_count]
      split_ifs <;> rfl
    · rw [hlen]
      exact angle_count_odd _ habs
  · intro heq
    subst heq
    constructor
    · rw [determine_angle_distribution_rational]
      rw [if_pos (by rw [sub_self, abs_zero])]
    · rw [determine_angle_distribution_nurbs, if_pos (sub_self sa)]
  · intro hlt
    have hpos : (0 : ℚ) < ea - sa := sub_pos.mpr hlt
    obtain ⟨l, hok, hlen, hhead, hlast⟩ :=
      linspaceQ_ok sa ea (angle_count (ea - sa))
        (by have := angle_count_ge_three _ hpos; omega)
    refine ⟨l, ?_, ?_, ?_, hhead, hlast⟩
    · rw [determine_angle_distribution_nurbs, if_neg (ne_of_gt hpos), hok]
    · rw [hlen, angle_count]
      split_ifs <;> rfl
    · rw [hlen]
      exact angle_count_odd _ hpos

/-- Witness for C8: a half-turn rational sweep, an empty sweep, and a forward
NURBS sweep. -/
theorem C8_witness :
    (∃ l, determine_angle_distribution_rational 0 np_pi = .ok l ∧
      l.length = (2 * ⌊|np_pi - 0| / (1/2 * np_pi)⌋ +
        (if pymod |np_pi - 0| (1/2 * np_pi) = 0 then 1 else 3)).toNat ∧
      Odd l.length ∧ l.getD 0 0 = 0 ∧ l.getD (l.length - 1) 0 = np_pi) ∧
    (determine_angle_distribution_rational 1 1 =
      .error .invalidGeometry ∧
     determine_angle_distribution_nurbs 1 1 = .error .invalidGeometry) ∧
    (∃ l, determine_angle_distribution_nurbs 0 1 = .ok l ∧
      l.length = (2 * ⌊((1 : ℚ) - 0) / (1/2 * np_pi)⌋ +
        (if pymod ((1 : ℚ) - 0) (1/2 * np_pi) = 0 then 1 else 3)).toNat ∧
      Odd l.length ∧ l.getD 0 0 = 0 ∧ l.getD (l.length - 1) 0 = 1) :=
  ⟨(C8_angle_distribution 0 np_pi).1 (by norm_num [np_pi]),
    (C8_angle_distribution 1 1).2.1 rfl,
    (C8_angle_distribution 0 1).2.2 (by norm_num)⟩

/-- The angle distribution of a quarter-turn rational sweep exists and has 3
samples. -/
theorem c9_angles_spec : ∃ angles,
    determine_angle_distribution_rational 0 (1/2 * np_pi) = .ok angles ∧
    angles.length = 3 := by
  have habs : |(1/2 * np_pi : ℚ) - 0| = 1/2 * np_pi := by
    rw [sub_zero]
    exact abs_of_pos half_np_pi_pos
  have hc : (1/2 * np_pi : ℚ) ≠ 0 := ne_of_gt half_np_pi_pos
  have hdiv : (1/2 * np_pi : ℚ) / (1/2 * np_pi) = 1 := div_self hc
  have hfloor : ⌊(1/2 * np_pi : ℚ) / (1/2 * np_pi)⌋ = 1 := by
    rw [hdiv]
    exact Int.floor_one
  have hmod : pymod (1/2 * np_pi) (1/2 * np_pi) = 0 := by
    rw [pymod, hfloor, Int.cast_one, mul_one, sub_self]
  have hcount : angle_count (1/2 * np_pi) = 3 := by
    rw [angle_count, if_pos hmod, hfloor]
    norm_num
  refine ⟨(List.range (3 : ℤ).toNat).map
    (fun (k : ℕ) => 0 + (1/2 * np_pi - 0) * (k : ℚ) / (((3 : ℤ) : ℚ) - 1)),
    ?_, by simp⟩
  rw [determine_angle_distribution_rational, if_neg (by rw [habs]; exact hc),
    habs, hcount, linspaceQ, if_neg (by omega), if_neg (by omega)]

/-- C9 (amended).  In the revolution builder, given the angle
distribution, every profile point whose measured radius is 0 has all its
rotated copies equal to the original point; the weight row attached to every
profile point — on-axis or not — assigns 1.0 to even-indexed copies and
`sin(pi/2 - half-angle)` (half-angle from the bracketing even-indexed angle
samples) to odd-indexed copies.  The claim's statement that an on-axis row
receives weight 1.0 at every index contradicts the code, which appends the
sine weight at odd indices regardless of radius (see the counterexample). -/
theorem C9_revolve_rows (projFn : V3 → Line3D → V3)
    (distFn : V3 → Line3D → ℚ) (rotFn : V3 → Line3D → ℚ → V3)
    (normFn : V3 → V3) (sinFn : ℚ → ℚ) (bezier_points : List V3)
    (axis : Line3D) (sa ea : ℚ) (angles : List ℚ)
    (hang : determine_angle_distribution_rational sa ea = .ok angles) :
    from_bezier_revolve projFn distFn rotFn normFn sinFn bezier_points axis
        sa ea = .ok
      (bezier_points.map (fun pt =>
        revolve_row_points projFn distFn rotFn normFn sinFn pt axis angles),
       bezier_points.map (fun _ => revolve_row_weights sinFn angles)) ∧
    (∀ idx < angles.length,
      (revolve_row_weights sinFn angles).getD idx 0 =
        if idx % 2 = 0 then 1
        else sinFn (1/2 * np_pi -
          1/2 * (angles.getD (idx + 1) 0 - angles.getD (idx - 1) 0))) ∧
    (∀ pt : V3, distFn pt axis = 0 → ∀ idx < angles.length,
      (revolve_row_points projFn distFn rotFn normFn sinFn pt axis
        angles).getD idx pt = pt) := by
  refine ⟨?_, ?_, ?_⟩
  · rw [from_bezier_revolve, hang]
  · intro idx hidx
    rw [revolve_row_weights, range_map_getD _ _ _ hidx]
  · intro pt hdist idx hidx
    rw [revolve_row_points, range_map_getD _ _ _ hidx]
    simp [hdist]

/-- C9 counterexample: an on-axis profile point (measured radius 0) still
receives the sine weight at the odd index — with a sine helper returning 1/2,
the middle weight of the row is 1/2, not the 1.0 the claim asserts for
on-axis rows. -/
theorem C9_counterexample :
    ∃ angles,
      determine_angle_distribution_rational 0 (1/2 * np_pi) = .ok angles ∧
      from_bezier_revolve (fun p _ => p) (fun _ _ => 0) (fun p _ _ => p)
        (fun v => v) (fun _ => 1/2) [![1, 0, 0]] ⟨![0, 0, 0], ![0, 0, 1]⟩ 0
        (1/2 * np_pi) = .ok
          ([revolve_row_points (fun p _ => p) (fun _ _ => 0) (fun p _ _ => p)
            (fun v => v) (fun _ => 1/2) ![1, 0, 0] ⟨![0, 0, 0], ![0, 0, 1]⟩
            angles],
          [revolve_row_weights (fun _ => 1/2) angles]) ∧
      ((revolve_row_weights (fun _ => (1/2 : ℚ)) angles).getD 1 0 = 1/2 ∧
        ((1/2 : ℚ) ≠ 1)) := by
  obtain ⟨angles, hang, hlen⟩ := c9_angles_spec
  refine ⟨angles, hang, ?_, ?_, by norm_num⟩
  · rw [from_bezier_revolve, hang]
    rfl
  · rw [revolve_row_weights, range_map_getD _ _ _ (by omega)]
    norm_num

/-- Witness for C9: the quarter-turn sweep of a single profile point with
identity-like opaque helpers. -/
theorem C9_witness :
    ∃ angles,
      determine_angle_distribution_rational 0 (1/2 * np_pi) = .ok angles ∧
      (from_bezier_revolve (fun p _ => p) (fun _ _ => 0) (fun p _ _ => p)
          (fun v => v) (fun q => q) [![1, 0, 0]] ⟨![0, 0, 0], ![0, 0, 1]⟩ 0
          (1/2 * np_pi) = .ok
        (([![1, 0, 0]] : List V3).map (fun pt =>
          revolve_row_points (fun p _ => p) (fun _ _ => 0) (fun p _ _ => p)
            (fun v => v) (fun q => q) pt ⟨![0, 0, 0], ![0, 0, 1]⟩ angles),
         ([![1, 0, 0]] : List V3).map (fun _ =>
          revolve_row_weights (fun q => q) angles)) ∧
      (∀ idx < angles.length,
        (revolve_row_weights (fun q => q) angles).getD idx 0 =
          if idx % 2 = 0 then 1
          else (fun q => q) (1/2 * np_pi -
            1/2 * (angles.getD (idx + 1) 0 - angles.getD (idx - 1) 0))) ∧
      (∀ pt : V3, (fun (_ : V3) (_ : Line3D) => (0 : ℚ)) pt
          ⟨![0, 0, 0], ![0, 0, 1]⟩ = 0 → ∀ idx < angles.length,
        (revolve_row_points (fun p _ => p) (fun _ _ => 0) (fun p _ _ => p)
          (fun v => v) (fun q => q) pt ⟨![0, 0, 0], ![0, 0, 1]⟩
          angles).getD idx pt = pt)) := by
  obtain ⟨angles, hang, hlen⟩ := c9_angles_spec
  exact ⟨angles, hang,
    C9_revolve_rows (fun p _ => p) (fun _ _ => 0) (fun p _ _ => p)
      (fun v => v) (fun q => q) [![1, 0, 0]] ⟨![0, 0, 0], ![0, 0, 1]⟩ 0
      (1/2 * np_pi) angles hang⟩
